import Mathlib

/-!
# Verification of the memory simulation engine (`memory_manager.py`)
and the tutorial step verifier (`tutorial_manager.py`).

The Python engine is shallowly embedded as a pure state-passing model:

* Python `dict`s (insertion ordered since CPython 3.7) become association
  lists with `dget`/`dset`/`ddel` mirroring lookup / in-place update /
  deletion semantics.
* `collections.deque` becomes a plain list (popleft = head, append = snoc).
* A frame's `id` field holds either `None` or a process id; process ids are
  handed out from `next_id`, which starts at `1` and only increases, so ids
  are always `≥ 1`.  We encode Python `None` as `0`.
* Every engine operation returns `Except ExcKind α × Engine`: the second
  component is the state at the moment the call returns or the exception
  propagates (Python mutates in place, so an exception raised after partial
  mutation leaves the partial state behind — the model keeps that fidelity).
-/

/-- Frame status: the Python code only ever stores the strings
`'free'` and `'allocated'` in `frame['status']`. -/
inductive FrameStatus where
  | free
  | allocated
deriving DecidableEq, Repr

/-- One slot of `self.memory`: `{'status': ..., 'id': ...}`.
`id = 0` encodes Python `None`; genuine process ids are `≥ 1`. -/
structure Frame where
  status : FrameStatus
  id : Nat
deriving DecidableEq, Repr

/-- An entry of `self.operations` (only the fields the code writes). -/
inductive OpRecord where
  | allocOp (process_id size : Nat) (frames : List Nat)
  | deallocOp (process_id : Nat) (address : Nat) (frames : List Nat)
  | accessRec (address : Int) (hit : Bool)
deriving DecidableEq, Repr

/-- The error kinds of the engine (all raised as `ValueError`/`IndexError`
in Python; the spec names them `CapacityError`, `InvalidAddressError`,
`NothingAllocatedError`). -/
inductive ExcKind where
  | capacityError
  | invalidAddressError
  | nothingAllocatedError
  | noProcessIdError
  | indexError
deriving DecidableEq, Repr

/-- The whole mutable state of one `MemoryManager` instance. -/
structure Engine where
  technique : String
  memory_size : Nat
  page_size : Nat
  algorithm : String
  total_frames : Nat
  memory : List Frame
  page_table : List (Nat × List Nat)
  page_queue : List (Nat × Nat)
  page_access_time : List ((Nat × Nat) × Nat)
  page_faults : Nat
  memory_accesses : Nat
  page_hits : Nat
  operations : List OpRecord
  next_id : Nat
deriving DecidableEq, Repr

/-- `MemoryManager.__init__`. -/
def initEngine (technique : String) (memory_size page_size : Nat)
    (algorithm : String) : Engine :=
  { technique := technique
    memory_size := memory_size
    page_size := page_size
    algorithm := algorithm
    total_frames := memory_size / page_size
    memory := List.replicate (memory_size / page_size) ⟨.free, 0⟩
    page_table := []
    page_queue := []
    page_access_time := []
    page_faults := 0
    memory_accesses := 0
    page_hits := 0
    operations := []
    next_id := 1 }

/-- Python `d.get(k)` / `d[k]` lookup on an insertion-ordered dict. -/
def dget {κ α : Type} [DecidableEq κ] : List (κ × α) → κ → Option α
  | [], _ => none
  | p :: rest, k => if p.1 = k then some p.2 else dget rest k

/-- Python `d[k] = v`: update in place if present, else append. -/
def dset {κ α : Type} [DecidableEq κ] : List (κ × α) → κ → α → List (κ × α)
  | [], k, v => [(k, v)]
  | p :: rest, k, v => if p.1 = k then (k, v) :: rest else p :: dset rest k v

/-- Python `del d[k]` (no-op when `k` is absent, matching guarded deletes). -/
def ddel {κ α : Type} [DecidableEq κ] (d : List (κ × α)) (k : κ) : List (κ × α) :=
  d.filter (fun p => p.1 ≠ k)

/-- Default frame used by total lookups (all real lookups are in bounds). -/
def frameAt (m : List Frame) (i : Nat) : Frame :=
  m.getD i ⟨.free, 0⟩

/-- `[i for i, frame in enumerate(self.memory) if frame['status'] == 'free']`
(ascending frame indices whose status is free). -/
def freeIndices (m : List Frame) : List Nat :=
  (List.range m.length).filter (fun i => (frameAt m i).status = .free)

/-- `[i for i, f in enumerate(self.memory) if f['status'] == 'allocated']`
(ascending frame indices whose status is allocated; the Python scans also
carry the frame / its id along, recovered here via `frameAt`). -/
def allocatedIdx (m : List Frame) : List Nat :=
  (List.range m.length).filter (fun i => (frameAt m i).status = .allocated)

/-- Python `min(items, key=lambda x: x[1])` starting from a first element:
keeps the current minimum on ties, so the first minimal item wins. -/
def minFrom (acc : (Nat × Nat) × Nat) :
    List ((Nat × Nat) × Nat) → (Nat × Nat) × Nat
  | [] => acc
  | p :: rest => minFrom (if p.2 < acc.2 then p else acc) rest

/-- `min(self.page_access_time.items(), key=lambda x: x[1])`. -/
def minByVal : List ((Nat × Nat) × Nat) → Option ((Nat × Nat) × Nat)
  | [] => none
  | p :: rest => some (minFrom p rest)

/-!
## Engine operations (`MemoryManager` methods)
-/

/-- The body of the eviction step of `_replace_pages` after a victim
`(process_id, frame_idx)` has been selected: the safety checks
(`process_id is None`, frame index bounds — a failed check `continue`s,
i.e. leaves the state as it stands), freeing the frame, the page-table
update, and the `page_faults` increment. -/
def evictFrame (s : Engine) (pid fi : Nat) : Engine :=
  if pid = 0 then s
  else if fi < s.memory.length then
    { s with
      memory := s.memory.set fi ⟨.free, 0⟩
      page_table :=
        match dget s.page_table pid with
        | some l =>
          let l' := l.filter (fun f => f ≠ fi)
          if l' = [] then ddel s.page_table pid else dset s.page_table pid l'
        | none => s.page_table
      page_faults := s.page_faults + 1 }
  else s

/-- One iteration of the `for _ in range(num_pages)` loop of
`_replace_pages`: victim selection per algorithm (with the fallback scans),
then `evictFrame`.  `none` models the `break` taken when no allocated frame
exists. -/
def replaceSelect (s : Engine) : Option Engine :=
  if s.algorithm = "FIFO" then
    match s.page_queue with
    | [] =>
      match allocatedIdx s.memory with
      | [] => none
      | fi :: _ => some (evictFrame s (frameAt s.memory fi).id fi)
    | (pid, fi) :: rest => some (evictFrame { s with page_queue := rest } pid fi)
  else if s.algorithm = "LRU" then
    match s.page_access_time with
    | [] =>
      match allocatedIdx s.memory with
      | [] => none
      | fi :: _ => some (evictFrame s (frameAt s.memory fi).id fi)
    | q :: qs =>
      match minByVal (q :: qs) with
      | some (key, _) =>
        some (evictFrame { s with page_access_time := ddel s.page_access_time key }
          key.1 key.2)
      | none => none
  else
    match allocatedIdx s.memory with
    | [] => none
    | fi :: _ => some (evictFrame s (frameAt s.memory fi).id fi)

/-- The iteration of `_replace_pages`' main loop. -/
def replacePagesAux : Nat → Engine → Engine
  | 0, s => s
  | n + 1, s =>
    match replaceSelect s with
    | none => s
    | some s' => replacePagesAux n s'

/-- `MemoryManager._replace_pages` (the `num_pages <= 0` early return,
then the loop). -/
def replace_pages (s : Engine) (num_pages : Nat) : Engine :=
  if num_pages = 0 then s else replacePagesAux num_pages s

/-- One iteration of the allocation loop of `allocate_memory`
(`for frame_idx in allocated_frames`). -/
def allocStep (pid : Nat) (af : List Nat) (s : Engine) (fi : Nat) : Engine :=
  { s with
    memory := s.memory.set fi ⟨.allocated, pid⟩
    page_table := dset s.page_table pid af
    page_queue :=
      if s.algorithm = "FIFO" then s.page_queue ++ [(pid, fi)] else s.page_queue
    page_access_time :=
      if s.algorithm = "LRU" then
        dset s.page_access_time (pid, fi) s.memory_accesses
      else s.page_access_time }

/-- `num_pages_needed = (size + self.page_size - 1) // self.page_size`. -/
def num_pages_needed (s : Engine) (size : Nat) : Nat :=
  (size + s.page_size - 1) / s.page_size

/-- The state after the conditional `_replace_pages` call of
`allocate_memory` (`free_frames` is scanned once before it). -/
def allocAfterReplace (s : Engine) (n : Nat) : Engine :=
  if (freeIndices s.memory).length < n
  then replace_pages s (n - (freeIndices s.memory).length)
  else s

/-- `allocated_frames = free_frames[:num_pages_needed]`, where
`free_frames` was recomputed after `_replace_pages` (and only then). -/
def allocTarget (s : Engine) (n : Nat) : List Nat :=
  (if (freeIndices s.memory).length < n
   then freeIndices (allocAfterReplace s n).memory
   else freeIndices s.memory).take n

/-- The mutation tail of `allocate_memory`: draw a fresh process id,
run the allocation loop over the chosen frames, append the log record. -/
def allocCommit (s1 : Engine) (size : Nat) (af : List Nat) : Engine :=
  let pid := s1.next_id
  let s3 := af.foldl (allocStep pid af) { s1 with next_id := pid + 1 }
  { s3 with operations := s3.operations ++ [.allocOp pid size af] }

/-- `MemoryManager.allocate_memory`.  The result is the returned base
address; `.error .capacityError` is the `ValueError` for oversized
requests, and `.error .indexError` the `IndexError` raised by
`allocated_frames[0]` when no frame was allocated (the state then keeps
the mutations performed before the raise, including the appended log
record). -/
def allocate_memory (s : Engine) (size : Nat) : Except ExcKind Nat × Engine :=
  let n := num_pages_needed s size
  if n > s.total_frames then (.error .capacityError, s)
  else
    let af := allocTarget s n
    (match af with
     | [] => Except.error ExcKind.indexError
     | f :: _ => Except.ok (f * s.page_size),
     allocCommit (allocAfterReplace s n) size af)

/-- One iteration of the freeing loop of `deallocate_memory`
(`for frame_idx in process_frames` with its bounds safety check). -/
def deallocStep (pid : Nat) (t : Engine) (fi : Nat) : Engine :=
  if fi < t.memory.length then
    { t with
      memory := t.memory.set fi ⟨.free, 0⟩
      page_queue :=
        if t.algorithm = "FIFO" then t.page_queue.filter (fun p => p.1 ≠ pid)
        else t.page_queue
      page_access_time :=
        if t.algorithm = "LRU" then
          t.page_access_time.filter (fun q => q.1.1 ≠ pid)
        else t.page_access_time }
  else t

/-- The tail of `deallocate_memory` once the frame to free has been
resolved to `fnum` (`process_id = frame['id']` onward). -/
def deallocCore (s : Engine) (fnum : Nat) : Except ExcKind Unit × Engine :=
  let fr := frameAt s.memory fnum
  if fr.id = 0 then (.error .noProcessIdError, s)
  else
    let pid := fr.id
    let pf0 := (dget s.page_table pid).getD []
    let pf := if pf0 = [] then [fnum] else pf0
    let s1 := pf.foldl (deallocStep pid) s
    let s2 := { s1 with page_table := ddel s1.page_table pid }
    let s3 :=
      { s2 with operations := s2.operations ++ [.deallocOp pid (fnum * s.page_size) pf] }
    (.ok (), s3)

/-- `MemoryManager.deallocate_memory` for an integer address (the
`None`/format checks of the Python code cannot fire on an integer). -/
def deallocate_memory (s : Engine) (address : Int) : Except ExcKind Unit × Engine :=
  let fn0 := address.fdiv (s.page_size : Int)
  if fn0 ≥ (s.memory.length : Int) ∨ fn0 < 0 then (.error .invalidAddressError, s)
  else
    let fnum := fn0.toNat
    if (frameAt s.memory fnum).status = .allocated then deallocCore s fnum
    else
      match allocatedIdx s.memory with
      | [] => (.error .nothingAllocatedError, s)
      | j :: _ => deallocCore s j

/-- `MemoryManager._handle_page_fault` (total: its only caller passes an
in-bounds frame index; the `none` branch is the unreachable out-of-range
read). -/
def handle_page_fault (s : Engine) (fn : Nat) : Engine :=
  match s.memory.get? fn with
  | none => s
  | some fr =>
    if fr.status = .allocated then s
    else
      let pid := s.next_id
      { s with
        next_id := pid + 1
        memory := s.memory.set fn ⟨.allocated, pid⟩
        page_table :=
          match dget s.page_table pid with
          | some l => dset s.page_table pid (l ++ [fn])
          | none => dset s.page_table pid [fn]
        page_queue :=
          if s.algorithm = "FIFO" then s.page_queue ++ [(pid, fn)] else s.page_queue
        page_access_time :=
          if s.algorithm = "LRU" then
            dset s.page_access_time (pid, fn) s.memory_accesses
          else s.page_access_time }

/-- The frame index used by `access_memory`: `address // page_size`,
clamped by `min(max(0, frame_num), len(self.memory) - 1)` when out of
bounds. -/
def accessFrameIndex (s : Engine) (address : Int) : Nat :=
  let len : Int := (s.memory.length : Int)
  let fn0 := address.fdiv (s.page_size : Int)
  (if fn0 ≥ len ∨ fn0 < 0 then min (max 0 fn0) (len - 1) else fn0).toNat

/-- `MemoryManager.access_memory` for an integer address.  The only
possible exception is the `IndexError` of `self.memory[-1]` when the
engine has zero frames (raised after `memory_accesses` was already
incremented). -/
def access_memory (s : Engine) (address : Int) : Except ExcKind Bool × Engine :=
  let fn := accessFrameIndex s address
  let s1 := { s with memory_accesses := s.memory_accesses + 1 }
  match s1.memory.get? fn with
  | none => (.error .indexError, s1)
  | some fr =>
    if fr.status = .allocated then
      let s2 := { s1 with page_hits := s1.page_hits + 1 }
      let s3 :=
        if s2.algorithm = "LRU" then
          { s2 with
            page_access_time := dset s2.page_access_time (fr.id, fn) s2.memory_accesses }
        else s2
      (.ok true, { s3 with operations := s3.operations ++ [.accessRec address true] })
    else
      let s2 := { s1 with page_faults := s1.page_faults + 1 }
      let s3 := handle_page_fault s2 fn
      (.ok false, { s3 with operations := s3.operations ++ [.accessRec address false] })

/-!
## Operation sequences and reachability
-/

/-- A request to the engine's public interface. -/
inductive Request where
  | alloc (size : Nat)
  | dealloc (address : Int)
  | access (address : Int)
deriving DecidableEq, Repr

/-- The state after a request (whether or not it raised). -/
def applyReq (s : Engine) (r : Request) : Engine :=
  match r with
  | .alloc n => (allocate_memory s n).2
  | .dealloc a => (deallocate_memory s a).2
  | .access a => (access_memory s a).2

def runReqs (s : Engine) (rs : List Request) : Engine :=
  rs.foldl applyReq s

/-- States reachable from a freshly constructed engine (construction
requires a positive page size — `memory_size // page_size` would raise
`ZeroDivisionError` otherwise). -/
def Reachable (s : Engine) : Prop :=
  ∃ technique memory_size page_size algorithm rs,
    1 ≤ page_size ∧
    s = runReqs (initEngine technique memory_size page_size algorithm) rs

/-- Writing one frame value at a list of indices (the memory component of
the allocation / deallocation loops). -/
def setFrames (v : Frame) (m : List Frame) (l : List Nat) : List Frame :=
  l.foldl (fun m' fi => m'.set fi v) m

/-!
## The engine invariant

The inductive invariant of reachable engine states.  Its first three
fields are the spec's page-table/frame-consistency invariant; the
remaining fields record the accuracy of the replacement metadata and the
freshness discipline of process ids, which are needed to push the
invariant through `_replace_pages`.
-/

structure EngineInv (s : Engine) : Prop where
  next_id_pos : 1 ≤ s.next_id
  table_sound : ∀ pid l, dget s.page_table pid = some l →
    l ≠ [] ∧ ∀ i ∈ l, i < s.memory.length ∧ frameAt s.memory i = ⟨.allocated, pid⟩
  mem_complete : ∀ i, i < s.memory.length →
    (frameAt s.memory i).status = .allocated →
    ∃ l, dget s.page_table (frameAt s.memory i).id = some l ∧ i ∈ l
  pid_range : ∀ pid, (dget s.page_table pid).isSome → 1 ≤ pid ∧ pid < s.next_id
  queue_sound : ∀ p ∈ s.page_queue, ∃ l, dget s.page_table p.1 = some l ∧ p.2 ∈ l
  queue_nodup : s.page_queue.Nodup
  atime_sound : ∀ q ∈ s.page_access_time,
    ∃ l, dget s.page_table q.1.1 = some l ∧ q.1.2 ∈ l
  fifo_only : s.algorithm ≠ "FIFO" → s.page_queue = []
  lru_only : s.algorithm ≠ "LRU" → s.page_access_time = []

/-- A run consisting only of `access_memory` calls (for claim C2). -/
def runAccesses (s : Engine) (addrs : List Int) : Engine :=
  addrs.foldl (fun t a => (access_memory t a).2) s

deriving instance DecidableEq for Except

/-- The engine state of the C3 scenario: fresh 4-frame FIFO engine after
four single-frame allocations (owners A,B,C,D = ids 1,2,3,4 in frames
0,1,2,3). -/
def c3state : Engine :=
  runReqs (initEngine "paging" 256 64 "FIFO")
    [Request.alloc 64, Request.alloc 64, Request.alloc 64, Request.alloc 64]

/-- The engine state of the C4 scenario: fresh 4-frame LRU engine after
four single-frame allocations (owners A,B,C,D = ids 1,2,3,4 in frames
0,1,2,3) followed by an access to A's frame (address 0). -/
def c4state : Engine :=
  (access_memory (runReqs (initEngine "paging" 256 64 "LRU")
    [Request.alloc 64, Request.alloc 64, Request.alloc 64, Request.alloc 64]) 0).2

/-- The engine state of the C5 witness: one owner (id 1) spanning three
frames 0,1,2. -/
def c5state : Engine :=
  runReqs (initEngine "paging" 256 64 "FIFO") [Request.alloc 192]

/-- The engine state of the C7 witness: one allocated frame (frame 0,
owner 1), frames 1–3 free. -/
def c7state : Engine :=
  runReqs (initEngine "paging" 256 64 "FIFO") [Request.alloc 64]

/-!
## Tutorial step verification (`tutorial_manager.py`)
-/

/-- An `expected_operation` dict of a tutorial step: a `type` string plus
the optional `size` / `address` keys. -/
structure ExpectedOp where
  optype : String
  size : Option Int := none
  address : Option Int := none
deriving DecidableEq, Repr

/-- A tutorial step, reduced to the only field `verify_step_completed`
reads: the optional `expected_operation` (titles, contents, tasks and
configs are UI strings that the verifier never consults). -/
structure TutStep where
  expected_operation : Option ExpectedOp
deriving DecidableEq, Repr

/-- The `operation_data` dict handed to `verify_step_completed` by the
caller; every key may be absent (`.get` with defaults in the code). -/
structure OperationData where
  optype : Option String := none
  size : Option Int := none
  address : Option Int := none
deriving DecidableEq, Repr

/-- `TutorialManager.verify_step_completed` (the per-step comparison; the
surrounding current-tutorial bookkeeping selects which step is checked). -/
def verify_step_completed (step : TutStep) (od : OperationData) : Bool :=
  match step.expected_operation with
  | none => true
  | some e =>
    if e.optype = "reset" then decide (od.optype = some "reset")
    else if (some e.optype : Option String) ≠ od.optype then false
    else if e.optype = "allocate" ∧ e.size.isSome then
      decide (od.size.getD 0 = e.size.getD 0)
    else if e.optype = "access" ∧ e.address.isSome then
      decide (od.address.getD (-1) = e.address.getD (-1))
    else if e.optype = "deallocate" then true
    else false

/-- The expected-operation content of the four tutorials of
`TutorialManager.__init__` (steps in order; `⟨none⟩` is a step without an
`expected_operation`). -/
def introSteps : List TutStep :=
  [⟨none⟩,
   ⟨some ⟨"allocate", some 128, none⟩⟩,
   ⟨some ⟨"access", none, some 64⟩⟩,
   ⟨some ⟨"deallocate", none, none⟩⟩,
   ⟨none⟩]

def fragmentationSteps : List TutStep :=
  [⟨none⟩,
   ⟨some ⟨"allocate", some 256, none⟩⟩,
   ⟨some ⟨"allocate", some 128, none⟩⟩,
   ⟨some ⟨"deallocate", none, none⟩⟩,
   ⟨some ⟨"allocate", some 192, none⟩⟩,
   ⟨some ⟨"allocate", some 60, none⟩⟩,
   ⟨none⟩]

def pageReplacementSteps : List TutStep :=
  [⟨none⟩,
   ⟨some ⟨"allocate", some 512, none⟩⟩,
   ⟨some ⟨"allocate", some 128, none⟩⟩,
   ⟨some ⟨"reset", none, none⟩⟩,
   ⟨some ⟨"allocate", some 256, none⟩⟩,
   ⟨some ⟨"allocate", some 384, none⟩⟩,
   ⟨none⟩]

def optimizationSteps : List TutStep :=
  [⟨none⟩,
   ⟨some ⟨"allocate", some 60, none⟩⟩,
   ⟨some ⟨"allocate", some 64, none⟩⟩,
   ⟨some ⟨"access", none, some 0⟩⟩,
   ⟨some ⟨"deallocate", none, none⟩⟩,
   ⟨some ⟨"allocate", none, none⟩⟩,
   ⟨none⟩]

def allTutorialSteps : List TutStep :=
  introSteps ++ fragmentationSteps ++ pageReplacementSteps ++ optimizationSteps

/-- The claim's criterion for C9, written from the spec's words: the step
auto-satisfies without an expected operation; a `reset` expectation is
satisfied only by a reset-typed operation; otherwise the operation types
must be equal and, additionally, for an expected allocate the sizes must
be equal, for an expected access the addresses must be equal (a performed
record's missing size / address defaults to 0 / -1 as in the code; an
expected operation without the relevant key has no size/address to be
equal to), and any deallocate satisfies an expected deallocate. -/
def claimStepCriterion (step : TutStep) (od : OperationData) : Prop :=
  match step.expected_operation with
  | none => True
  | some e =>
    if e.optype = "reset" then od.optype = some "reset"
    else
      od.optype = some e.optype ∧
      (e.optype = "allocate" → e.size = some (od.size.getD 0)) ∧
      (e.optype = "access" → e.address = some (od.address.getD (-1)))

/-- The expected-operation types that occur in the tutorial data. -/
def stepTypeOk (st : TutStep) : Bool :=
  match st.expected_operation with
  | none => true
  | some e =>
    e.optype == "allocate" || e.optype == "access" ||
      e.optype == "deallocate" || e.optype == "reset"

theorem dget_dset_self {κ α : Type} [DecidableEq κ] (d : List (κ × α)) (k : κ) (v : α) :
    dget (dset d k v) k = some v := by
  induction d with
  | nil => simp [dget, dset]
  | cons p rest ih =>
    by_cases h : p.1 = k <;> simp [dget, dset, h, ih]

theorem dget_dset_ne {κ α : Type} [DecidableEq κ] (d : List (κ × α)) (k k' : κ) (v : α) (h : k ≠ k') :
    dget (dset d k v) k' = dget d k' := by
  induction d with
  | nil => simp [dget, dset, h]
  | cons p rest ih =>
    by_cases hp : p.1 = k
    · simp [dget, dset, hp, h]
    · by_cases hp' : p.1 = k' <;>
        simp [dget, dset, hp, hp', ih, Ne.symm h]

theorem dget_ddel_self {κ α : Type} [DecidableEq κ] (d : List (κ × α)) (k : κ) :
    dget (ddel d k) k = none := by
  induction d with
  | nil => simp [dget, ddel]
  | cons p rest ih =>
    by_cases h : p.1 = k <;> simp_all [dget, ddel, List.filter]

theorem dget_ddel_ne {κ α : Type} [DecidableEq κ] (d : List (κ × α)) (k k' : κ) (h : k ≠ k') :
    dget (ddel d k) k' = dget d k' := by
  induction d with
  | nil => simp [dget, ddel]
  | cons p rest ih =>
    by_cases hp : p.1 = k
    · have : ¬ p.1 = k' := by rw [hp]; exact h
      simp_all [dget, ddel, List.filter]
    · by_cases hp' : p.1 = k' <;> simp_all [dget, ddel, List.filter]

theorem mem_of_dget {κ α : Type} [DecidableEq κ] {d : List (κ × α)} {k : κ} {v : α}
    (h : dget d k = some v) : (k, v) ∈ d := by
  induction d with
  | nil => simp [dget] at h
  | cons p rest ih =>
    by_cases hp : p.1 = k
    · simp [dget, hp] at h
      have hpkv : p = (k, v) := by cases p; simp_all
      rw [← hpkv]
      exact List.mem_cons_self _ _
    · simp [dget, hp] at h
      exact List.mem_cons_of_mem _ (ih h)

theorem mem_dset {κ α : Type} [DecidableEq κ] {d : List (κ × α)} {k : κ} {v : α} {q : κ × α}
    (h : q ∈ dset d k v) : q = (k, v) ∨ q ∈ d := by
  induction d with
  | nil => simp [dset] at h; simp [h]
  | cons p rest ih =>
    by_cases hp : p.1 = k
    · simp [dset, hp] at h
      rcases h with h | h
      · simp [h]
      · right; exact List.mem_cons_of_mem _ h
    · simp [dset, hp] at h
      rcases h with h | h
      · right; simp [h]
      · rcases ih h with h' | h'
        · simp [h']
        · right; exact List.mem_cons_of_mem _ h'

theorem mem_ddel {κ α : Type} [DecidableEq κ] {d : List (κ × α)} {k : κ} {q : κ × α}
    (h : q ∈ ddel d k) : q ∈ d ∧ q.1 ≠ k := by
  have := List.of_mem_filter h
  refine ⟨List.mem_of_mem_filter h, ?_⟩
  simpa using this

theorem dget_isSome_dset {κ α : Type} [DecidableEq κ] {d : List (κ × α)} {k k' : κ} {v : α}
    (h : (dget (dset d k v) k').isSome) :
    k' = k ∨ (dget d k').isSome := by
  by_cases hk : k' = k
  · exact Or.inl hk
  · right; rwa [dget_dset_ne d k k' v (fun e => hk e.symm)] at h

theorem dget_isSome_ddel {κ α : Type} [DecidableEq κ] {d : List (κ × α)} {k k' : κ}
    (h : (dget (ddel d k) k').isSome) : (dget d k').isSome := by
  by_cases hk : k' = k
  · rw [hk, dget_ddel_self] at h; simp at h
  · rwa [dget_ddel_ne d k k' (fun e => hk e.symm)] at h

theorem dset_dset_same {κ α : Type} [DecidableEq κ] (d : List (κ × α)) (k : κ) (v w : α) :
    dset (dset d k v) k w = dset d k w := by
  induction d with
  | nil => simp [dset]
  | cons p rest ih =>
    by_cases hp : p.1 = k <;> simp [dset, hp, ih]

theorem mem_freeIndices {m : List Frame} {i : Nat} :
    i ∈ freeIndices m ↔ i < m.length ∧ (frameAt m i).status = .free := by
  simp [freeIndices, List.mem_filter]

theorem mem_allocatedIdx {m : List Frame} {i : Nat} :
    i ∈ allocatedIdx m ↔ i < m.length ∧ (frameAt m i).status = .allocated := by
  simp [allocatedIdx, List.mem_filter]

theorem nodup_freeIndices (m : List Frame) : (freeIndices m).Nodup :=
  (List.nodup_range _).filter _

theorem minFrom_mem (acc : (Nat × Nat) × Nat)
    (l : List ((Nat × Nat) × Nat)) : minFrom acc l = acc ∨ minFrom acc l ∈ l := by
  induction l generalizing acc with
  | nil => simp [minFrom]
  | cons p rest ih =>
    simp only [minFrom]
    by_cases h : p.2 < acc.2
    · simp only [h, if_pos]
      rcases ih p with h' | h'
      · right; simp [h']
      · right; exact List.mem_cons_of_mem _ h'
    · simp only [h, if_neg, if_false]
      rcases ih acc with h' | h'
      · left; exact h'
      · right; exact List.mem_cons_of_mem _ h'

theorem minByVal_mem {l : List ((Nat × Nat) × Nat)} {p : (Nat × Nat) × Nat}
    (h : minByVal l = some p) : p ∈ l := by
  cases l with
  | nil => simp [minByVal] at h
  | cons q rest =>
    simp only [minByVal, Option.some.injEq] at h
    rcases minFrom_mem q rest with h' | h'
    · rw [← h, h']; exact List.mem_cons_self _ _
    · rw [← h]; exact List.mem_cons_of_mem _ h'

/-!
## Frame-array utility lemmas
-/

theorem frameAt_of_get? {m : List Frame} {i : Nat} {fr : Frame}
    (h : m.get? i = some fr) : frameAt m i = fr := by
  simp [frameAt, List.getD_eq_getElem?_getD, ← List.get?_eq_getElem?, h]

theorem lt_length_of_get? {m : List Frame} {i : Nat} {fr : Frame}
    (h : m.get? i = some fr) : i < m.length := by
  by_contra hc
  rw [List.get?_eq_none.mpr (Nat.le_of_not_lt hc)] at h
  exact Option.noConfusion h

theorem get?_of_lt_length {m : List Frame} {i : Nat} (h : i < m.length) :
    m.get? i = some (frameAt m i) := by
  rcases List.get?_eq_get h with h'
  rw [h']
  rw [frameAt_of_get? h']

theorem frameAt_set_self {m : List Frame} {i : Nat} (f : Frame)
    (h : i < m.length) : frameAt (m.set i f) i = f := by
  induction m generalizing i with
  | nil => simp at h
  | cons a rest ih =>
    cases i with
    | zero => simp [frameAt]
    | succ n =>
      simp only [List.set]
      simp only [frameAt, List.getD_cons_succ] at *
      exact ih (by simpa using h)

theorem frameAt_set_ne (m : List Frame) {i j : Nat} (f : Frame)
    (h : i ≠ j) : frameAt (m.set i f) j = frameAt m j := by
  induction m generalizing i j with
  | nil => simp [List.set]
  | cons a rest ih =>
    cases i with
    | zero =>
      cases j with
      | zero => exact absurd rfl h
      | succ nj => simp [frameAt, List.set]
    | succ ni =>
      cases j with
      | zero => simp [frameAt, List.set]
      | succ nj =>
        simp only [List.set, frameAt, List.getD_cons_succ] at *
        exact ih (fun e => h (by rw [e]))

theorem frameAt_replicate_free (n i : Nat) :
    frameAt (List.replicate n ⟨.free, 0⟩) i = ⟨.free, 0⟩ := by
  induction n generalizing i with
  | zero => simp [frameAt]
  | succ k ih =>
    cases i with
    | zero => simp [frameAt, List.replicate]
    | succ j =>
      simp only [List.replicate, frameAt, List.getD_cons_succ]
      exact ih j

theorem length_setFrames (v : Frame) (m : List Frame) (l : List Nat) :
    (setFrames v m l).length = m.length := by
  induction l generalizing m with
  | nil => rfl
  | cons x rest ih =>
    simp only [setFrames, List.foldl] at *
    rw [ih]
    exact List.length_set m x v

theorem frameAt_setFrames_not_mem {v : Frame} {m : List Frame} {l : List Nat}
    {i : Nat} (h : i ∉ l) : frameAt (setFrames v m l) i = frameAt m i := by
  induction l generalizing m with
  | nil => rfl
  | cons x rest ih =>
    simp only [setFrames, List.foldl] at *
    rw [ih (fun hm => h (List.mem_cons_of_mem _ hm))]
    exact frameAt_set_ne m v (fun e => h (by rw [← e]; exact List.mem_cons_self x rest))

theorem frameAt_setFrames_mem {v : Frame} {m : List Frame} {l : List Nat}
    {i : Nat} (hb : ∀ fi ∈ l, fi < m.length) (hi : i ∈ l) :
    frameAt (setFrames v m l) i = v := by
  induction l generalizing m with
  | nil => simp at hi
  | cons x rest ih =>
    simp only [setFrames, List.foldl] at *
    by_cases hr : i ∈ rest
    · exact ih (fun fi hfi => by rw [List.length_set]; exact hb fi (.tail _ hfi)) hr
    · have hix : i = x := by
        rcases List.mem_cons.mp hi with h | h
        · exact h
        · exact absurd h hr
      subst hix
      have : frameAt (m.set i v) i = v :=
        frameAt_set_self v (hb i (List.mem_cons_self _ _))
      calc frameAt (setFrames v (m.set i v) rest) i
          = frameAt (m.set i v) i := frameAt_setFrames_not_mem hr
        _ = v := this

theorem filter_self_idem {α : Type} (p : α → Bool) (l : List α) :
    (l.filter p).filter p = l.filter p := by
  rw [List.filter_eq_self]
  intro a ha
  exact List.of_mem_filter ha

theorem mem_foldl_dset {pid v : Nat} {af : List Nat}
    {d : List ((Nat × Nat) × Nat)} {q : (Nat × Nat) × Nat}
    (h : q ∈ af.foldl (fun d' fi => dset d' (pid, fi) v) d) :
    q ∈ d ∨ ∃ fi ∈ af, q = ((pid, fi), v) := by
  induction af generalizing d with
  | nil => exact Or.inl h
  | cons x rest ih =>
    simp only [List.foldl] at h
    rcases ih h with h' | h'
    · rcases mem_dset h' with h'' | h''
      · exact Or.inr ⟨x, List.mem_cons_self _ _, h''⟩
      · exact Or.inl h''
    · rcases h' with ⟨fi, hfi, he⟩
      exact Or.inr ⟨fi, List.mem_cons_of_mem _ hfi, he⟩

theorem owner_unique {s : Engine} (h : EngineInv s) {pid pid' : Nat}
    {l l' : List Nat} {i : Nat}
    (h1 : dget s.page_table pid = some l) (hi : i ∈ l)
    (h2 : dget s.page_table pid' = some l') (hi' : i ∈ l') : pid = pid' := by
  have a := ((h.table_sound pid l h1).2 i hi).2
  have b := ((h.table_sound pid' l' h2).2 i hi').2
  rw [a] at b
  exact (Frame.mk.injEq _ _ _ _).mp b |>.2

theorem inv_initEngine (technique : String) (memory_size page_size : Nat)
    (algorithm : String) :
    EngineInv (initEngine technique memory_size page_size algorithm) := by
  constructor <;> intros <;>
    simp_all [initEngine, dget, frameAt_replicate_free]

/-!
## Characterization of the allocation loop
-/

theorem allocLoop_spec (pid : Nat) (AF : List Nat) :
    ∀ (af : List Nat) (s : Engine),
    let t := af.foldl (allocStep pid AF) s
    t.memory = setFrames ⟨.allocated, pid⟩ s.memory af ∧
    t.page_table = (if af = [] then s.page_table else dset s.page_table pid AF) ∧
    t.page_queue =
      (if s.algorithm = "FIFO" then s.page_queue ++ af.map (fun fi => (pid, fi))
       else s.page_queue) ∧
    t.page_access_time =
      (if s.algorithm = "LRU" then
        af.foldl (fun d fi => dset d (pid, fi) s.memory_accesses) s.page_access_time
       else s.page_access_time) ∧
    t.technique = s.technique ∧ t.memory_size = s.memory_size ∧
    t.page_size = s.page_size ∧ t.algorithm = s.algorithm ∧
    t.total_frames = s.total_frames ∧ t.page_faults = s.page_faults ∧
    t.memory_accesses = s.memory_accesses ∧ t.page_hits = s.page_hits ∧
    t.operations = s.operations ∧ t.next_id = s.next_id := by
  intro af
  induction af with
  | nil =>
    intro s
    refine ⟨rfl, by simp, ?_, ?_, rfl, rfl, rfl, rfl, rfl, rfl, rfl, rfl, rfl, rfl⟩
    · by_cases hF : s.algorithm = "FIFO" <;> simp [hF]
    · by_cases hL : s.algorithm = "LRU" <;> simp [hL]
  | cons x rest ih =>
    intro s
    have h := ih (allocStep pid AF s x)
    obtain ⟨hm, hpt, hq, hat, htec, hms, hps, halg, htf, hpf, hma, hph, hops, hni⟩ := h
    have halgs : (allocStep pid AF s x).algorithm = s.algorithm := rfl
    have hmas : (allocStep pid AF s x).memory_accesses = s.memory_accesses := rfl
    refine ⟨?_, ?_, ?_, ?_, htec, hms, hps, halg, htf, hpf, hma, hph, hops, hni⟩
    · rw [List.foldl_cons, hm]
      rfl
    · rw [List.foldl_cons, hpt]
      by_cases hr : rest = []
      · simp [hr, allocStep]
      · simp only [hr, if_false, List.cons_ne_self x rest]
        simp only [allocStep, dset_dset_same]
        simp
    · rw [List.foldl_cons, hq, halgs]
      by_cases hF : s.algorithm = "FIFO"
      · simp [hF, allocStep, List.append_assoc]
      · simp [hF, allocStep]
    · rw [List.foldl_cons, hat, halgs, hmas]
      by_cases hL : s.algorithm = "LRU"
      · simp [hL, allocStep]
      · simp [hL, allocStep]

/-!
## Characterization of the deallocation loop
-/

theorem deallocLoop_spec (pid : Nat) :
    ∀ (pf : List Nat) (s : Engine), pf ≠ [] →
    (∀ fi ∈ pf, fi < s.memory.length) →
    let t := pf.foldl (deallocStep pid) s
    t.memory = setFrames ⟨.free, 0⟩ s.memory pf ∧
    t.page_queue =
      (if s.algorithm = "FIFO" then s.page_queue.filter (fun p => p.1 ≠ pid)
       else s.page_queue) ∧
    t.page_access_time =
      (if s.algorithm = "LRU" then s.page_access_time.filter (fun q => q.1.1 ≠ pid)
       else s.page_access_time) ∧
    t.technique = s.technique ∧ t.memory_size = s.memory_size ∧
    t.page_size = s.page_size ∧ t.algorithm = s.algorithm ∧
    t.total_frames = s.total_frames ∧ t.page_table = s.page_table ∧
    t.page_faults = s.page_faults ∧ t.memory_accesses = s.memory_accesses ∧
    t.page_hits = s.page_hits ∧ t.operations = s.operations ∧
    t.next_id = s.next_id := by
  intro pf
  induction pf with
  | nil => intro s hne; exact absurd rfl hne
  | cons x rest ih =>
    intro s _ hb
    have hx : x < s.memory.length := hb x (List.mem_cons_self _ _)
    have hstep : deallocStep pid s x =
        { s with
          memory := s.memory.set x ⟨.free, 0⟩
          page_queue :=
            if s.algorithm = "FIFO" then s.page_queue.filter (fun p => p.1 ≠ pid)
            else s.page_queue
          page_access_time :=
            if s.algorithm = "LRU" then
              s.page_access_time.filter (fun q => q.1.1 ≠ pid)
            else s.page_access_time } := by
      simp [deallocStep, hx]
    by_cases hr : rest = []
    · subst hr
      simp only [List.foldl_cons, List.foldl_nil, hstep]
      simp [setFrames]
    · have hb' : ∀ fi ∈ rest, fi < (deallocStep pid s x).memory.length := by
        intro fi hfi
        rw [hstep]
        simpa [List.length_set] using hb fi (List.mem_cons_of_mem _ hfi)
      have h := ih (deallocStep pid s x) hr hb'
      obtain ⟨hm, hq, hat, htec, hms, hps, halg, htf, hpt, hpf, hma, hph, hops, hni⟩ := h
      have halgs : (deallocStep pid s x).algorithm = s.algorithm := by rw [hstep]
      refine ⟨?_, ?_, ?_, ?_, ?_, ?_, ?_, ?_, ?_, ?_, ?_, ?_, ?_, ?_⟩
      · rw [List.foldl_cons, hm, hstep]
        rfl
      · rw [List.foldl_cons, hq, halgs, hstep]
        by_cases hF : s.algorithm = "FIFO"
        · simp [hF, filter_self_idem]
        · simp [hF]
      · rw [List.foldl_cons, hat, halgs, hstep]
        by_cases hL : s.algorithm = "LRU"
        · simp [hL, filter_self_idem]
        · simp [hL]
      all_goals (rw [List.foldl_cons, hstep] at *)
      all_goals first
        | exact htec
        | exact hms
        | exact hps
        | exact halg
        | exact htf
        | exact hpt
        | exact hpf
        | exact hma
        | exact hph
        | exact hops
        | exact hni

/-!
## Invariant preservation: `_replace_pages`
-/

theorem inv_evictFrame {s : Engine} (h : EngineInv s) {pid fi : Nat} {l : List Nat}
    (hacc : dget s.page_table pid = some l) (hfi : fi ∈ l)
    (hq : ∀ p ∈ s.page_queue, p.2 ≠ fi)
    (ht : ∀ q ∈ s.page_access_time, q.1.2 ≠ fi) :
    EngineInv (evictFrame s pid fi) := by
  have hpid1 : 1 ≤ pid := (h.pid_range pid (by rw [hacc]; rfl)).1
  have hpid0 : ¬ pid = 0 := by omega
  have hts := h.table_sound pid l hacc
  have hfi_lt : fi < s.memory.length := (hts.2 fi hfi).1
  have hev : evictFrame s pid fi =
      { s with
        memory := s.memory.set fi ⟨.free, 0⟩
        page_table :=
          if l.filter (fun f => f ≠ fi) = [] then ddel s.page_table pid
          else dset s.page_table pid (l.filter (fun f => f ≠ fi))
        page_faults := s.page_faults + 1 } := by
    simp only [evictFrame, hacc, if_neg hpid0, if_pos hfi_lt]
  rw [hev]
  have hmem_l' : ∀ i, i ∈ l → i ≠ fi → i ∈ l.filter (fun f => f ≠ fi) := by
    intro i hil hne
    simp [List.mem_filter, hil, hne]
  have hN : ∀ pid₂, pid₂ ≠ pid →
      dget (if l.filter (fun f => f ≠ fi) = [] then ddel s.page_table pid
            else dset s.page_table pid (l.filter (fun f => f ≠ fi))) pid₂ =
      dget s.page_table pid₂ := by
    intro pid₂ hne
    by_cases hcl : l.filter (fun f => f ≠ fi) = []
    · rw [if_pos hcl]
      exact dget_ddel_ne _ _ _ (fun e => hne e.symm)
    · rw [if_neg hcl]
      exact dget_dset_ne _ _ _ _ (fun e => hne e.symm)
  have hB : ∀ i ∈ l.filter (fun f => f ≠ fi),
      dget (if l.filter (fun f => f ≠ fi) = [] then ddel s.page_table pid
            else dset s.page_table pid (l.filter (fun f => f ≠ fi))) pid =
      some (l.filter (fun f => f ≠ fi)) := by
    intro i hi
    have hcl : l.filter (fun f => f ≠ fi) ≠ [] := by
      intro e
      rw [e] at hi
      exact absurd hi (List.not_mem_nil i)
    rw [if_neg hcl]
    exact dget_dset_self _ _ _
  constructor
  · exact h.next_id_pos
  · -- table_sound
    intro pid₂ l₂ hg
    simp only at hg
    by_cases h2 : pid₂ = pid
    · subst h2
      by_cases hcl : l.filter (fun f => f ≠ fi) = []
      · rw [if_pos hcl, dget_ddel_self] at hg
        exact Option.noConfusion hg
      · rw [if_neg hcl, dget_dset_self] at hg
        obtain rfl : l₂ = l.filter (fun f => f ≠ fi) := (Option.some.injEq _ _).mp hg.symm
        refine ⟨hcl, ?_⟩
        intro i hi
        have hil : i ∈ l := List.mem_of_mem_filter hi
        have hine : i ≠ fi := by simpa using List.of_mem_filter hi
        refine ⟨by rw [List.length_set]; exact (hts.2 i hil).1, ?_⟩
        rw [frameAt_set_ne _ _ (fun e => hine e.symm)]
        exact (hts.2 i hil).2
    · rw [hN pid₂ h2] at hg
      obtain ⟨hne₂, hall⟩ := h.table_sound pid₂ l₂ hg
      refine ⟨hne₂, ?_⟩
      intro i hi
      have hine : i ≠ fi := by
        intro e
        subst e
        exact h2 (owner_unique h hg hi hacc hfi)
      refine ⟨by rw [List.length_set]; exact (hall i hi).1, ?_⟩
      rw [frameAt_set_ne _ _ (fun e => hine e.symm)]
      exact (hall i hi).2
  · -- mem_complete
    intro i hi hst
    simp only [List.length_set] at hi
    have hine : i ≠ fi := by
      intro e
      subst e
      rw [frameAt_set_self _ hfi_lt] at hst
      exact FrameStatus.noConfusion hst
    rw [frameAt_set_ne _ _ (fun e => hine e.symm)] at hst ⊢
    obtain ⟨lᵢ, hgᵢ, hiᵢ⟩ := h.mem_complete i hi hst
    by_cases hpe : (frameAt s.memory i).id = pid
    · rw [hpe] at hgᵢ ⊢
      have hle : lᵢ = l := by
        rw [hacc] at hgᵢ
        exact ((Option.some.injEq _ _).mp hgᵢ).symm
      rw [hle] at hiᵢ
      have hil' : i ∈ l.filter (fun f => f ≠ fi) := hmem_l' i hiᵢ hine
      exact ⟨_, hB i hil', hil'⟩
    · rw [hN _ hpe]
      exact ⟨lᵢ, hgᵢ, hiᵢ⟩
  · -- pid_range
    intro pid₂ hs
    simp only at hs
    by_cases hcl : l.filter (fun f => f ≠ fi) = []
    · rw [if_pos hcl] at hs
      exact h.pid_range pid₂ (dget_isSome_ddel hs)
    · rw [if_neg hcl] at hs
      rcases dget_isSome_dset hs with h2 | h2
      · subst h2
        exact h.pid_range pid₂ (by rw [hacc]; rfl)
      · exact h.pid_range pid₂ h2
  · -- queue_sound
    intro p hp
    obtain ⟨l_p, hg_p, hm_p⟩ := h.queue_sound p hp
    by_cases hpe : p.1 = pid
    · rw [hpe] at hg_p ⊢
      have hle : l_p = l := by
        rw [hacc] at hg_p
        exact ((Option.some.injEq _ _).mp hg_p).symm
      rw [hle] at hm_p
      have hil' : p.2 ∈ l.filter (fun f => f ≠ fi) := hmem_l' p.2 hm_p (hq p hp)
      exact ⟨_, hB p.2 hil', hil'⟩
    · rw [hN _ hpe]
      exact ⟨l_p, hg_p, hm_p⟩
  · exact h.queue_nodup
  · -- atime_sound
    intro q hqm
    obtain ⟨l_q, hg_q, hm_q⟩ := h.atime_sound q hqm
    by_cases hpe : q.1.1 = pid
    · rw [hpe] at hg_q ⊢
      have hle : l_q = l := by
        rw [hacc] at hg_q
        exact ((Option.some.injEq _ _).mp hg_q).symm
      rw [hle] at hm_q
      have hil' : q.1.2 ∈ l.filter (fun f => f ≠ fi) :=
        hmem_l' q.1.2 hm_q (ht q hqm)
      exact ⟨_, hB q.1.2 hil', hil'⟩
    · rw [hN _ hpe]
      exact ⟨l_q, hg_q, hm_q⟩
  · exact h.fifo_only
  · exact h.lru_only

/-- Popping the head of the FIFO queue preserves the invariant. -/
theorem inv_queue_tail {s : Engine} (h : EngineInv s) {p : Nat × Nat}
    {rest : List (Nat × Nat)} (hqe : s.page_queue = p :: rest) :
    EngineInv { s with page_queue := rest } := by
  constructor
  · exact h.next_id_pos
  · exact h.table_sound
  · exact h.mem_complete
  · exact h.pid_range
  · intro p' hp'
    exact h.queue_sound p' (by rw [hqe]; exact List.mem_cons_of_mem _ hp')
  · have := h.queue_nodup
    rw [hqe] at this
    exact (List.nodup_cons.mp this).2
  · exact h.atime_sound
  · intro halg
    have := h.fifo_only halg
    rw [hqe] at this
    exact List.noConfusion this
  · exact h.lru_only

/-- Deleting a key from the LRU map preserves the invariant. -/
theorem inv_atime_ddel {s : Engine} (h : EngineInv s) (key : Nat × Nat) :
    EngineInv { s with page_access_time := ddel s.page_access_time key } := by
  constructor
  · exact h.next_id_pos
  · exact h.table_sound
  · exact h.mem_complete
  · exact h.pid_range
  · exact h.queue_sound
  · exact h.queue_nodup
  · intro q hq
    exact h.atime_sound q (mem_ddel hq).1
  · exact h.fifo_only
  · intro halg
    rw [h.lru_only halg]
    rfl

/-- The fallback eviction (first allocated frame) preserves the invariant
whenever both metadata structures are empty. -/
theorem inv_evict_fallback {s : Engine} (h : EngineInv s) {fi : Nat}
    (hmem : fi ∈ allocatedIdx s.memory)
    (hqe : s.page_queue = []) (hte : s.page_access_time = []) :
    EngineInv (evictFrame s (frameAt s.memory fi).id fi) := by
  obtain ⟨hlt, hst⟩ := mem_allocatedIdx.mp hmem
  obtain ⟨l, hg, hil⟩ := h.mem_complete fi hlt hst
  refine inv_evictFrame h hg hil ?_ ?_
  · intro p hp
    rw [hqe] at hp
    exact absurd hp (List.not_mem_nil p)
  · intro q hq
    rw [hte] at hq
    exact absurd hq (List.not_mem_nil q)

theorem inv_replaceSelect {s s' : Engine} (h : EngineInv s)
    (hsel : replaceSelect s = some s') : EngineInv s' := by
  by_cases hF : s.algorithm = "FIFO"
  · rcases hqe : s.page_queue with _ | ⟨⟨pid, fi⟩, rest⟩
    · rcases hae : allocatedIdx s.memory with _ | ⟨j, tl⟩
      · rw [replaceSelect, if_pos hF, hqe, hae] at hsel
        exact Option.noConfusion hsel
      · rw [replaceSelect, if_pos hF, hqe, hae] at hsel
        obtain rfl := (Option.some.injEq _ _).mp hsel
        have hte : s.page_access_time = [] := h.lru_only (by rw [hF]; decide)
        exact inv_evict_fallback h (by rw [hae]; exact List.mem_cons_self _ _) hqe hte
    · rw [replaceSelect, if_pos hF, hqe] at hsel
      obtain rfl := (Option.some.injEq _ _).mp hsel
      have h1 : EngineInv { s with page_queue := rest } := inv_queue_tail h hqe
      obtain ⟨l, hg, hil⟩ :=
        h.queue_sound (pid, fi) (by rw [hqe]; exact List.mem_cons_self _ _)
      refine inv_evictFrame h1 hg hil ?_ ?_
      · -- no remaining queue entry mentions frame `fi`
        intro p hp hp2
        obtain ⟨l_p, hg_p, hm_p⟩ := h.queue_sound p (by
          rw [hqe]
          exact List.mem_cons_of_mem _ hp)
        rw [hp2] at hm_p
        have hpp : p.1 = pid := owner_unique h hg_p hm_p hg hil
        have hnd := h.queue_nodup
        rw [hqe] at hnd
        have : (pid, fi) ∉ rest := (List.nodup_cons.mp hnd).1
        apply this
        have : p = (pid, fi) := by
          rcases p with ⟨a, b⟩
          simp only at hpp hp2
          rw [hpp, hp2]
        rw [← this]
        exact hp
      · intro q hq
        have hte : s.page_access_time = [] := h.lru_only (by rw [hF]; decide)
        simp only [hte] at hq
        exact absurd hq (List.not_mem_nil q)
  · by_cases hL : s.algorithm = "LRU"
    · have hqe : s.page_queue = [] := h.fifo_only hF
      rcases hte : s.page_access_time with _ | ⟨q0, qs⟩
      · rcases hae : allocatedIdx s.memory with _ | ⟨j, tl⟩
        · rw [replaceSelect, if_neg hF, if_pos hL, hte, hae] at hsel
          exact Option.noConfusion hsel
        · rw [replaceSelect, if_neg hF, if_pos hL, hte, hae] at hsel
          obtain rfl := (Option.some.injEq _ _).mp hsel
          exact inv_evict_fallback h (by rw [hae]; exact List.mem_cons_self _ _) hqe hte
      · rw [replaceSelect, if_neg hF, if_pos hL, hte] at hsel
        simp only [minByVal] at hsel
        obtain rfl := (Option.some.injEq _ _).mp hsel
        rw [← hte]
        have hmem : minFrom q0 qs ∈ s.page_access_time := by
          rw [hte]
          rcases minFrom_mem q0 qs with h' | h'
          · rw [h']
            exact List.mem_cons_self _ _
          · exact List.mem_cons_of_mem _ h'
        have h1 : EngineInv
            { s with page_access_time := ddel s.page_access_time (minFrom q0 qs).1 } :=
          inv_atime_ddel h (minFrom q0 qs).1
        obtain ⟨l, hg, hil⟩ := h.atime_sound (minFrom q0 qs) hmem
        refine inv_evictFrame h1 hg hil ?_ ?_
        · intro p hp
          simp only [hqe] at hp
          exact absurd hp (List.not_mem_nil p)
        · intro q hq hq2
          obtain ⟨hqmem, hqne⟩ := mem_ddel hq
          obtain ⟨l_q, hg_q, hm_q⟩ := h.atime_sound q hqmem
          rw [hq2] at hm_q
          have hqq : q.1.1 = (minFrom q0 qs).1.1 := owner_unique h hg_q hm_q hg hil
          apply hqne
          rcases hk : q.1 with ⟨a, b⟩
          rw [hk] at hqq hq2
          simp only at hqq hq2
          rw [hqq, hq2]
    · rw [replaceSelect, if_neg hF, if_neg hL] at hsel
      rcases hae : allocatedIdx s.memory with _ | ⟨j, tl⟩
      · rw [hae] at hsel
        exact Option.noConfusion hsel
      · rw [hae] at hsel
        obtain rfl := (Option.some.injEq _ _).mp hsel
        exact inv_evict_fallback h (by rw [hae]; exact List.mem_cons_self _ _)
          (h.fifo_only hF) (h.lru_only hL)

theorem inv_replacePagesAux (n : Nat) :
    ∀ s : Engine, EngineInv s → EngineInv (replacePagesAux n s) := by
  induction n with
  | zero => intro s h; exact h
  | succ k ih =>
    intro s h
    rw [replacePagesAux]
    rcases hsel : replaceSelect s with _ | s'
    · exact h
    · exact ih s' (inv_replaceSelect h hsel)

theorem inv_replace_pages {s : Engine} (h : EngineInv s) (n : Nat) :
    EngineInv (replace_pages s n) := by
  rw [replace_pages]
  by_cases hn : n = 0
  · rw [if_pos hn]
    exact h
  · rw [if_neg hn]
    exact inv_replacePagesAux n s h

/-!
## Invariant preservation: `allocate_memory`
-/

theorem inv_allocCommit {s1 : Engine} (h1 : EngineInv s1) (size : Nat)
    (af : List Nat)
    (hsub : ∀ fi ∈ af, fi < s1.memory.length ∧ (frameAt s1.memory fi).status = .free)
    (hnd : af.Nodup) : EngineInv (allocCommit s1 size af) := by
  obtain ⟨hm, hpt, hq, hat, _, _, _, halg, _, _, _, _, _, hni⟩ :=
    allocLoop_spec s1.next_id af af { s1 with next_id := s1.next_id + 1 }
  have hb : ∀ fi ∈ af, fi < s1.memory.length := fun fi hfi => (hsub fi hfi).1
  have hCm : (allocCommit s1 size af).memory =
      setFrames ⟨.allocated, s1.next_id⟩ s1.memory af := hm
  have hCpt : (allocCommit s1 size af).page_table =
      (if af = [] then s1.page_table else dset s1.page_table s1.next_id af) := hpt
  have hCq : (allocCommit s1 size af).page_queue =
      (if s1.algorithm = "FIFO" then
        s1.page_queue ++ af.map (fun fi => (s1.next_id, fi))
       else s1.page_queue) := hq
  have hCat : (allocCommit s1 size af).page_access_time =
      (if s1.algorithm = "LRU" then
        af.foldl (fun d fi => dset d (s1.next_id, fi) s1.memory_accesses)
          s1.page_access_time
       else s1.page_access_time) := hat
  have hCalg : (allocCommit s1 size af).algorithm = s1.algorithm := halg
  have hCni : (allocCommit s1 size af).next_id = s1.next_id + 1 := hni
  have hfresh : ∀ pid', (dget s1.page_table pid').isSome → pid' < s1.next_id :=
    fun pid' hs => (h1.pid_range pid' hs).2
  have hnotmem : ∀ pid₂ l₂, dget s1.page_table pid₂ = some l₂ →
      ∀ i ∈ l₂, i ∉ af := by
    intro pid₂ l₂ hg i hi hiaf
    have := ((h1.table_sound pid₂ l₂ hg).2 i hi).2
    have hfree := (hsub i hiaf).2
    rw [this] at hfree
    exact FrameStatus.noConfusion hfree
  by_cases hafe : af = []
  · subst hafe
    constructor
    · rw [hCni]; omega
    · intro pid₂ l₂ hg
      rw [hCpt, if_pos rfl] at hg
      obtain ⟨hne, hall⟩ := h1.table_sound pid₂ l₂ hg
      refine ⟨hne, fun i hi => ?_⟩
      rw [hCm]
      exact hall i hi
    · intro i hi hst
      rw [hCm] at hi hst ⊢
      have := h1.mem_complete i hi hst
      rw [hCpt, if_pos rfl]
      exact this
    · intro pid₂ hs
      rw [hCpt, if_pos rfl] at hs
      obtain ⟨ha, hb'⟩ := h1.pid_range pid₂ hs
      rw [hCni]
      omega
    · intro p hp
      rw [hCq] at hp
      rw [hCpt, if_pos rfl]
      by_cases hF : s1.algorithm = "FIFO"
      · rw [if_pos hF, List.map_nil, List.append_nil] at hp
        exact h1.queue_sound p hp
      · rw [if_neg hF] at hp
        exact h1.queue_sound p hp
    · rw [hCq]
      by_cases hF : s1.algorithm = "FIFO"
      · rw [if_pos hF, List.map_nil, List.append_nil]
        exact h1.queue_nodup
      · rw [if_neg hF]
        exact h1.queue_nodup
    · intro q hqm
      rw [hCat] at hqm
      rw [hCpt, if_pos rfl]
      by_cases hL : s1.algorithm = "LRU"
      · rw [if_pos hL, List.foldl_nil] at hqm
        exact h1.atime_sound q hqm
      · rw [if_neg hL] at hqm
        exact h1.atime_sound q hqm
    · intro halg'
      rw [hCalg] at halg'
      rw [hCq, if_neg halg']
      exact h1.fifo_only halg'
    · intro halg'
      rw [hCalg] at halg'
      rw [hCat, if_neg halg']
      exact h1.lru_only halg'
  · have hCpt' : (allocCommit s1 size af).page_table =
        dset s1.page_table s1.next_id af := by rw [hCpt, if_neg hafe]
    constructor
    · rw [hCni]; omega
    · intro pid₂ l₂ hg
      rw [hCpt'] at hg
      by_cases h2 : pid₂ = s1.next_id
      · subst h2
        rw [dget_dset_self] at hg
        obtain rfl : l₂ = af := ((Option.some.injEq _ _).mp hg).symm
        refine ⟨hafe, fun i hi => ?_⟩
        constructor
        · rw [hCm, length_setFrames]
          exact hb i hi
        · rw [hCm]
          exact frameAt_setFrames_mem hb hi
      · rw [dget_dset_ne _ _ _ _ (fun e => h2 e.symm)] at hg
        obtain ⟨hne, hall⟩ := h1.table_sound pid₂ l₂ hg
        refine ⟨hne, fun i hi => ?_⟩
        have hnaf : i ∉ af := hnotmem pid₂ l₂ hg i hi
        constructor
        · rw [hCm, length_setFrames]
          exact (hall i hi).1
        · rw [hCm, frameAt_setFrames_not_mem hnaf]
          exact (hall i hi).2
    · intro i hi hst
      rw [hCm, length_setFrames] at hi
      by_cases hiaf : i ∈ af
      · rw [hCm, frameAt_setFrames_mem hb hiaf]
        rw [hCpt']
        exact ⟨af, dget_dset_self _ _ _, hiaf⟩
      · rw [hCm, frameAt_setFrames_not_mem hiaf] at hst ⊢
        obtain ⟨lᵢ, hgᵢ, hiᵢ⟩ := h1.mem_complete i hi hst
        have hlt : (frameAt s1.memory i).id < s1.next_id :=
          hfresh _ (by rw [hgᵢ]; rfl)
        rw [hCpt', dget_dset_ne _ _ _ _ (by omega)]
        exact ⟨lᵢ, hgᵢ, hiᵢ⟩
    · intro pid₂ hs
      rw [hCpt'] at hs
      rw [hCni]
      rcases dget_isSome_dset hs with h2 | h2
      · subst h2
        exact ⟨h1.next_id_pos, by omega⟩
      · obtain ⟨ha, hb'⟩ := h1.pid_range pid₂ h2
        exact ⟨ha, by omega⟩
    · intro p hp
      rw [hCq] at hp
      rw [hCpt']
      have hold : p ∈ s1.page_queue →
          ∃ l, dget (dset s1.page_table s1.next_id af) p.1 = some l ∧ p.2 ∈ l := by
        intro hp'
        obtain ⟨l_p, hg_p, hm_p⟩ := h1.queue_sound p hp'
        have : p.1 < s1.next_id := hfresh _ (by rw [hg_p]; rfl)
        rw [dget_dset_ne _ _ _ _ (by omega)]
        exact ⟨l_p, hg_p, hm_p⟩
      by_cases hF : s1.algorithm = "FIFO"
      · rw [if_pos hF] at hp
        rcases List.mem_append.mp hp with hp' | hp'
        · exact hold hp'
        · obtain ⟨fi, hfi, rfl⟩ := List.mem_map.mp hp'
          exact ⟨af, dget_dset_self _ _ _, hfi⟩
      · rw [if_neg hF] at hp
        exact hold hp
    · rw [hCq]
      by_cases hF : s1.algorithm = "FIFO"
      · rw [if_pos hF, List.nodup_append]
        refine ⟨h1.queue_nodup, hnd.map (fun a b e => ?_), ?_⟩
        · exact ((Prod.mk.injEq _ _ _ _).mp e).2
        · intro a ha hma
          obtain ⟨l_a, hg_a, _⟩ := h1.queue_sound a ha
          have h1' : a.1 < s1.next_id := hfresh _ (by rw [hg_a]; rfl)
          obtain ⟨fi, _, rfl⟩ := List.mem_map.mp hma
          simp at h1'
      · rw [if_neg hF]
        exact h1.queue_nodup
    · intro q hqm
      rw [hCat] at hqm
      rw [hCpt']
      have hold : q ∈ s1.page_access_time →
          ∃ l, dget (dset s1.page_table s1.next_id af) q.1.1 = some l ∧ q.1.2 ∈ l := by
        intro hq'
        obtain ⟨l_q, hg_q, hm_q⟩ := h1.atime_sound q hq'
        have : q.1.1 < s1.next_id := hfresh _ (by rw [hg_q]; rfl)
        rw [dget_dset_ne _ _ _ _ (by omega)]
        exact ⟨l_q, hg_q, hm_q⟩
      by_cases hL : s1.algorithm = "LRU"
      · rw [if_pos hL] at hqm
        rcases mem_foldl_dset hqm with hq' | ⟨fi, hfi, rfl⟩
        · exact hold hq'
        · exact ⟨af, dget_dset_self _ _ _, hfi⟩
      · rw [if_neg hL] at hqm
        exact hold hqm
    · intro halg'
      rw [hCalg] at halg'
      rw [hCq, if_neg halg']
      exact h1.fifo_only halg'
    · intro halg'
      rw [hCalg] at halg'
      rw [hCat, if_neg halg']
      exact h1.lru_only halg'

theorem inv_allocate {s : Engine} (h : EngineInv s) (size : Nat) :
    EngineInv (allocate_memory s size).2 := by
  rw [allocate_memory]
  by_cases hcap : num_pages_needed s size > s.total_frames
  · rw [if_pos hcap]
    exact h
  · rw [if_neg hcap]
    have h1 : EngineInv (allocAfterReplace s (num_pages_needed s size)) := by
      rw [allocAfterReplace]
      by_cases hsh : (freeIndices s.memory).length < num_pages_needed s size
      · rw [if_pos hsh]
        exact inv_replace_pages h _
      · rw [if_neg hsh]
        exact h
    have htgt : ∀ fi ∈ allocTarget s (num_pages_needed s size),
        fi ∈ freeIndices (allocAfterReplace s (num_pages_needed s size)).memory := by
      intro fi hfi
      rw [allocTarget] at hfi
      by_cases hsh : (freeIndices s.memory).length < num_pages_needed s size
      · rw [if_pos hsh] at hfi
        exact (List.take_sublist _ _).mem hfi
      · rw [if_neg hsh] at hfi
        have : fi ∈ freeIndices s.memory := (List.take_sublist _ _).mem hfi
        rw [allocAfterReplace, if_neg hsh]
        exact this
    have hndt : (allocTarget s (num_pages_needed s size)).Nodup := by
      rw [allocTarget]
      by_cases hsh : (freeIndices s.memory).length < num_pages_needed s size
      · rw [if_pos hsh]
        exact (nodup_freeIndices _).sublist (List.take_sublist _ _)
      · rw [if_neg hsh]
        exact (nodup_freeIndices _).sublist (List.take_sublist _ _)
    exact inv_allocCommit h1 size _
      (fun fi hfi => (mem_freeIndices.mp (htgt fi hfi)).imp id
        (fun h' => h'))
      hndt

/-!
## Invariant preservation: `deallocate_memory`
-/

theorem inv_deallocCore {s : Engine} (h : EngineInv s) {fnum : Nat}
    (hlt : fnum < s.memory.length)
    (hst : (frameAt s.memory fnum).status = .allocated) :
    EngineInv (deallocCore s fnum).2 := by
  obtain ⟨l₀, hg₀, hm₀⟩ := h.mem_complete fnum hlt hst
  have hpid := h.pid_range _ (by rw [hg₀]; rfl)
  have hid0 : ¬ (frameAt s.memory fnum).id = 0 := by omega
  have hts := h.table_sound _ _ hg₀
  have hb : ∀ fi ∈ l₀, fi < s.memory.length := fun fi hfi => (hts.2 fi hfi).1
  have hpf : ((dget s.page_table (frameAt s.memory fnum).id).getD [] = [] →
      False) := by
    rw [hg₀]
    intro hc
    exact hts.1 hc
  have hpfval : (if (dget s.page_table (frameAt s.memory fnum).id).getD [] = []
      then [fnum] else (dget s.page_table (frameAt s.memory fnum).id).getD []) = l₀ := by
    rw [hg₀]
    rw [if_neg (by rw [hg₀] at hpf; simpa using fun hc => hpf hc)]
    rfl
  rw [deallocCore]
  rw [if_neg hid0]
  simp only [hpfval]
  obtain ⟨hm, hq, hat, _, _, _, halg, _, hpt, _, _, _, _, hni⟩ :=
    deallocLoop_spec (frameAt s.memory fnum).id l₀ s hts.1 hb
  set pid := (frameAt s.memory fnum).id with hpidd
  constructor
  · rw [hni]
    exact h.next_id_pos
  · intro pid₂ l₂ hg
    simp only [hpt] at hg
    by_cases h2 : pid₂ = pid
    · subst h2
      rw [dget_ddel_self] at hg
      exact Option.noConfusion hg
    · rw [dget_ddel_ne _ _ _ (fun e => h2 e.symm)] at hg
      obtain ⟨hne₂, hall⟩ := h.table_sound pid₂ l₂ hg
      refine ⟨hne₂, fun i hi => ?_⟩
      have hnin : i ∉ l₀ := by
        intro hin
        exact h2 (owner_unique h hg hi hg₀ hin)
      constructor
      · rw [hm, length_setFrames]
        exact (hall i hi).1
      · rw [hm, frameAt_setFrames_not_mem hnin]
        exact (hall i hi).2
  · intro i hi hst'
    rw [hm, length_setFrames] at hi
    by_cases hin : i ∈ l₀
    · rw [hm, frameAt_setFrames_mem hb hin] at hst'
      exact FrameStatus.noConfusion hst'
    · rw [hm, frameAt_setFrames_not_mem hin] at hst' ⊢
      obtain ⟨lᵢ, hgᵢ, hiᵢ⟩ := h.mem_complete i hi hst'
      have h2 : (frameAt s.memory i).id ≠ pid := by
        intro e
        rw [e, hg₀] at hgᵢ
        have : lᵢ = l₀ := ((Option.some.injEq _ _).mp hgᵢ).symm
        rw [this] at hiᵢ
        exact hin hiᵢ
      rw [hpt, dget_ddel_ne _ _ _ (fun e => h2 e.symm)]
      exact ⟨lᵢ, hgᵢ, hiᵢ⟩
  · intro pid₂ hs
    rw [hpt] at hs
    rw [hni]
    exact h.pid_range pid₂ (dget_isSome_ddel hs)
  · intro p hp
    rw [hq] at hp
    rw [hpt]
    by_cases hF : s.algorithm = "FIFO"
    · rw [if_pos hF] at hp
      have hpne : p.1 ≠ pid := by simpa using List.of_mem_filter hp
      obtain ⟨l_p, hg_p, hm_p⟩ := h.queue_sound p (List.mem_of_mem_filter hp)
      rw [dget_ddel_ne _ _ _ (fun e => hpne e.symm)]
      exact ⟨l_p, hg_p, hm_p⟩
    · rw [if_neg hF] at hp
      rw [h.fifo_only hF] at hp
      exact absurd hp (List.not_mem_nil p)
  · rw [hq]
    by_cases hF : s.algorithm = "FIFO"
    · rw [if_pos hF]
      exact h.queue_nodup.filter _
    · rw [if_neg hF]
      exact h.queue_nodup
  · intro q hqm
    rw [hat] at hqm
    rw [hpt]
    by_cases hL : s.algorithm = "LRU"
    · rw [if_pos hL] at hqm
      have hqne : q.1.1 ≠ pid := by simpa using List.of_mem_filter hqm
      obtain ⟨l_q, hg_q, hm_q⟩ := h.atime_sound q (List.mem_of_mem_filter hqm)
      rw [dget_ddel_ne _ _ _ (fun e => hqne e.symm)]
      exact ⟨l_q, hg_q, hm_q⟩
    · rw [if_neg hL] at hqm
      rw [h.lru_only hL] at hqm
      exact absurd hqm (List.not_mem_nil q)
  · intro halg'
    rw [halg] at halg'
    rw [hq]
    by_cases hF : s.algorithm = "FIFO"
    · exact absurd hF halg'
    · rw [if_neg hF]
      exact h.fifo_only hF
  · intro halg'
    rw [halg] at halg'
    rw [hat]
    by_cases hL : s.algorithm = "LRU"
    · exact absurd hL halg'
    · rw [if_neg hL]
      exact h.lru_only hL

theorem inv_deallocate {s : Engine} (h : EngineInv s) (address : Int) :
    EngineInv (deallocate_memory s address).2 := by
  rw [deallocate_memory]
  by_cases hob : address.fdiv (s.page_size : Int) ≥ (s.memory.length : Int) ∨
      address.fdiv (s.page_size : Int) < 0
  · rw [if_pos hob]
    exact h
  · rw [if_neg hob]
    push_neg at hob
    have hlt : (address.fdiv (s.page_size : Int)).toNat < s.memory.length := by
      omega
    by_cases hst : (frameAt s.memory (address.fdiv (s.page_size : Int)).toNat).status
        = .allocated
    · rw [if_pos hst]
      exact inv_deallocCore h hlt hst
    · rw [if_neg hst]
      rcases hae : allocatedIdx s.memory with _ | ⟨j, tl⟩
      · exact h
      · have hj : j ∈ allocatedIdx s.memory := by
          rw [hae]
          exact List.mem_cons_self _ _
        obtain ⟨hjlt, hjst⟩ := mem_allocatedIdx.mp hj
        exact inv_deallocCore h hjlt hjst

/-!
## Invariant preservation: `access_memory`
-/

theorem inv_counters_only {s t : Engine}
    (hmem : t.memory = s.memory) (hpt : t.page_table = s.page_table)
    (hq : t.page_queue = s.page_queue)
    (hat : t.page_access_time = s.page_access_time)
    (halg : t.algorithm = s.algorithm) (hni : t.next_id = s.next_id)
    (h : EngineInv s) : EngineInv t := by
  constructor
  · rw [hni]; exact h.next_id_pos
  · rw [hpt, hmem]; exact h.table_sound
  · rw [hpt, hmem]; exact h.mem_complete
  · rw [hpt, hni]; exact h.pid_range
  · rw [hq, hpt]; exact h.queue_sound
  · rw [hq]; exact h.queue_nodup
  · rw [hat, hpt]; exact h.atime_sound
  · rw [halg, hq]; exact h.fifo_only
  · rw [halg, hat]; exact h.lru_only

theorem inv_handle_page_fault {s : Engine} (h : EngineInv s) (fn : Nat) :
    EngineInv (handle_page_fault s fn) := by
  rw [handle_page_fault]
  rcases hget : s.memory.get? fn with _ | fr
  · exact h
  · simp only [hget]
    have hlt : fn < s.memory.length := lt_length_of_get? hget
    have hfr : frameAt s.memory fn = fr := frameAt_of_get? hget
    by_cases hst : fr.status = .allocated
    · rw [if_pos hst]
      exact h
    · rw [if_neg hst]
      have hfresh : dget s.page_table s.next_id = none := by
        rcases hg : dget s.page_table s.next_id with _ | l
        · rfl
        · have := (h.pid_range s.next_id (by rw [hg]; rfl)).2
          omega
      have hfreshlt : ∀ pid', (dget s.page_table pid').isSome → pid' < s.next_id :=
        fun pid' hs => (h.pid_range pid' hs).2
      simp only [hfresh]
      constructor
      · simp only
        omega
      · intro pid₂ l₂ hg
        simp only at hg
        by_cases h2 : pid₂ = s.next_id
        · subst h2
          rw [dget_dset_self] at hg
          obtain rfl : l₂ = [fn] := ((Option.some.injEq _ _).mp hg).symm
          refine ⟨by simp, fun i hi => ?_⟩
          obtain rfl : i = fn := by simpa using hi
          constructor
          · simp only [List.length_set]
            exact hlt
          · simp only
            rw [frameAt_set_self _ hlt]
        · rw [dget_dset_ne _ _ _ _ (fun e => h2 e.symm)] at hg
          obtain ⟨hne₂, hall⟩ := h.table_sound pid₂ l₂ hg
          refine ⟨hne₂, fun i hi => ?_⟩
          have hine : i ≠ fn := by
            intro e
            subst e
            have := (hall i hi).2
            rw [hfr] at this
            rw [this] at hst
            exact hst rfl
          constructor
          · simp only [List.length_set]
            exact (hall i hi).1
          · simp only
            rw [frameAt_set_ne _ _ (fun e => hine e.symm)]
            exact (hall i hi).2
      · intro i hi hst'
        simp only [List.length_set] at hi
        simp only at hst' ⊢
        by_cases hin : i = fn
        · subst hin
          rw [frameAt_set_self _ hlt] at hst' ⊢
          exact ⟨[i], dget_dset_self _ _ _, by simp⟩
        · rw [frameAt_set_ne _ _ (fun e => hin e.symm)] at hst' ⊢
          obtain ⟨lᵢ, hgᵢ, hiᵢ⟩ := h.mem_complete i hi hst'
          have : (frameAt s.memory i).id < s.next_id :=
            hfreshlt _ (by rw [hgᵢ]; rfl)
          rw [dget_dset_ne _ _ _ _ (by omega)]
          exact ⟨lᵢ, hgᵢ, hiᵢ⟩
      · intro pid₂ hs
        simp only at hs ⊢
        rcases dget_isSome_dset hs with h2 | h2
        · subst h2
          exact ⟨h.next_id_pos, by omega⟩
        · obtain ⟨ha, hb'⟩ := h.pid_range pid₂ h2
          exact ⟨ha, by omega⟩
      · intro p hp
        simp only at hp ⊢
        by_cases hF : s.algorithm = "FIFO"
        · rw [if_pos hF] at hp
          rcases List.mem_append.mp hp with hp' | hp'
          · obtain ⟨l_p, hg_p, hm_p⟩ := h.queue_sound p hp'
            have : p.1 < s.next_id := hfreshlt _ (by rw [hg_p]; rfl)
            rw [dget_dset_ne _ _ _ _ (by omega)]
            exact ⟨l_p, hg_p, hm_p⟩
          · obtain rfl : p = (s.next_id, fn) := by simpa using hp'
            exact ⟨[fn], dget_dset_self _ _ _, by simp⟩
        · rw [if_neg hF] at hp
          obtain ⟨l_p, hg_p, hm_p⟩ := h.queue_sound p hp
          have : p.1 < s.next_id := hfreshlt _ (by rw [hg_p]; rfl)
          rw [dget_dset_ne _ _ _ _ (by omega)]
          exact ⟨l_p, hg_p, hm_p⟩
      · simp only
        by_cases hF : s.algorithm = "FIFO"
        · rw [if_pos hF, List.nodup_append]
          refine ⟨h.queue_nodup, by simp, ?_⟩
          intro a ha hma
          obtain ⟨l_a, hg_a, _⟩ := h.queue_sound a ha
          have h1' : a.1 < s.next_id := hfreshlt _ (by rw [hg_a]; rfl)
          obtain rfl : a = (s.next_id, fn) := by simpa using hma
          simp at h1'
        · rw [if_neg hF]
          exact h.queue_nodup
      · intro q hqm
        simp only at hqm ⊢
        by_cases hL : s.algorithm = "LRU"
        · rw [if_pos hL] at hqm
          rcases mem_dset hqm with h2 | h2
          · rw [h2]
            exact ⟨[fn], dget_dset_self _ _ _, by simp⟩
          · obtain ⟨l_q, hg_q, hm_q⟩ := h.atime_sound q h2
            have : q.1.1 < s.next_id := hfreshlt _ (by rw [hg_q]; rfl)
            rw [dget_dset_ne _ _ _ _ (by omega)]
            exact ⟨l_q, hg_q, hm_q⟩
        · rw [if_neg hL] at hqm
          obtain ⟨l_q, hg_q, hm_q⟩ := h.atime_sound q hqm
          have : q.1.1 < s.next_id := hfreshlt _ (by rw [hg_q]; rfl)
          rw [dget_dset_ne _ _ _ _ (by omega)]
          exact ⟨l_q, hg_q, hm_q⟩
      · intro halg'
        simp only at halg' ⊢
        rw [if_neg halg']
        exact h.fifo_only halg'
      · intro halg'
        simp only at halg' ⊢
        rw [if_neg halg']
        exact h.lru_only halg'

theorem inv_access {s : Engine} (h : EngineInv s) (address : Int) :
    EngineInv (access_memory s address).2 := by
  have hs1 : EngineInv { s with memory_accesses := s.memory_accesses + 1 } := by
    refine inv_counters_only ?_ ?_ ?_ ?_ ?_ ?_ h <;> rfl
  rw [access_memory]
  rcases hget : s.memory.get? (accessFrameIndex s address) with _ | fr
  · simp only [hget]
    exact hs1
  · simp only [hget]
    have hlt : accessFrameIndex s address < s.memory.length := lt_length_of_get? hget
    have hfr : frameAt s.memory (accessFrameIndex s address) = fr := frameAt_of_get? hget
    by_cases hst : fr.status = .allocated
    · rw [if_pos hst]
      dsimp only
      by_cases hL : s.algorithm = "LRU"
      · rw [if_pos hL]
        constructor
        · exact h.next_id_pos
        · exact h.table_sound
        · exact h.mem_complete
        · exact h.pid_range
        · exact h.queue_sound
        · exact h.queue_nodup
        · intro q hqm
          simp only at hqm ⊢
          rcases mem_dset hqm with h2 | h2
          · rw [h2]
            simp only
            rw [← hfr]
            exact h.mem_complete _ hlt (by rw [hfr]; exact hst)
          · exact h.atime_sound q h2
        · exact h.fifo_only
        · intro halg'
          simp only at halg'
          exact absurd hL halg'
      · rw [if_neg hL]
        refine inv_counters_only ?_ ?_ ?_ ?_ ?_ ?_ h <;> rfl
    · rw [if_neg hst]
      dsimp only
      have h2 : EngineInv { s with
          memory_accesses := s.memory_accesses + 1
          page_faults := s.page_faults + 1 } := by
        refine inv_counters_only ?_ ?_ ?_ ?_ ?_ ?_ h <;> rfl
      have h3 := inv_handle_page_fault h2 (accessFrameIndex s address)
      refine inv_counters_only ?_ ?_ ?_ ?_ ?_ ?_ h3 <;> rfl

theorem inv_applyReq {s : Engine} (h : EngineInv s) (r : Request) :
    EngineInv (applyReq s r) := by
  cases r with
  | alloc n => exact inv_allocate h n
  | dealloc a => exact inv_deallocate h a
  | access a => exact inv_access h a

theorem inv_runReqs (rs : List Request) :
    ∀ s : Engine, EngineInv s → EngineInv (runReqs s rs) := by
  induction rs with
  | nil => intro s h; exact h
  | cons r rest ih =>
    intro s h
    exact ih (applyReq s r) (inv_applyReq h r)

theorem inv_reachable {s : Engine} (h : Reachable s) : EngineInv s := by
  obtain ⟨technique, memory_size, page_size, algorithm, rs, _, rfl⟩ := h
  exact inv_runReqs rs _ (inv_initEngine technique memory_size page_size algorithm)

/-!
## Supporting lemmas for the claims
-/

/-- The clamped frame index of `access_memory` is always in bounds when the
engine has at least one frame. -/
theorem accessFrameIndex_lt {s : Engine} (address : Int)
    (hne : s.memory.length ≠ 0) : accessFrameIndex s address < s.memory.length := by
  simp only [accessFrameIndex]
  by_cases hc : address.fdiv (s.page_size : Int) ≥ ((s.memory.length : Int)) ∨
      address.fdiv (s.page_size : Int) < 0
  · rw [if_pos hc]
    have h1 : min (max 0 (address.fdiv (s.page_size : Int)))
        ((s.memory.length : Int) - 1) ≤ (s.memory.length : Int) - 1 :=
      min_le_right _ _
    have h2 : (0 : Int) ≤ min (max 0 (address.fdiv (s.page_size : Int)))
        ((s.memory.length : Int) - 1) :=
      le_min (le_max_left _ _) (by omega)
    omega
  · rw [if_neg hc]
    push_neg at hc
    omega

theorem handle_page_fault_counters (s : Engine) (fn : Nat) :
    (handle_page_fault s fn).memory_accesses = s.memory_accesses ∧
    (handle_page_fault s fn).page_faults = s.page_faults ∧
    (handle_page_fault s fn).page_hits = s.page_hits ∧
    (handle_page_fault s fn).memory.length = s.memory.length := by
  rw [handle_page_fault]
  rcases hget : s.memory.get? fn with _ | fr
  · exact ⟨rfl, rfl, rfl, rfl⟩
  · simp only [hget]
    by_cases hst : fr.status = .allocated
    · rw [if_pos hst]
      exact ⟨rfl, rfl, rfl, rfl⟩
    · rw [if_neg hst]
      exact ⟨rfl, rfl, rfl, by simp [List.length_set]⟩

/-- Counter / length behaviour of one `access_memory` call on an engine
with at least one frame: the access counter always increments, and exactly
one of `page_hits` / `page_faults` increments. -/
theorem access_memory_counters {s : Engine} (address : Int)
    (hne : s.memory.length ≠ 0) :
    ((access_memory s address).1 = Except.ok true ∨
      (access_memory s address).1 = Except.ok false) ∧
    (access_memory s address).2.memory_accesses = s.memory_accesses + 1 ∧
    (access_memory s address).2.page_hits + (access_memory s address).2.page_faults
      = s.page_hits + s.page_faults + 1 ∧
    (access_memory s address).2.memory.length = s.memory.length ∧
    ((access_memory s address).1 = Except.ok true ↔
      (frameAt s.memory (accessFrameIndex s address)).status = .allocated) := by
  have hlt : accessFrameIndex s address < s.memory.length := accessFrameIndex_lt address hne
  have hget : s.memory.get? (accessFrameIndex s address) =
      some (frameAt s.memory (accessFrameIndex s address)) := get?_of_lt_length hlt
  rw [access_memory]
  simp only [hget]
  by_cases hst : (frameAt s.memory (accessFrameIndex s address)).status = .allocated
  · rw [if_pos hst]
    dsimp only
    by_cases hL : s.algorithm = "LRU"
    · rw [if_pos hL]
      refine ⟨Or.inl rfl, rfl, ?_, rfl, by simp [hst]⟩
      show s.page_hits + 1 + s.page_faults = s.page_hits + s.page_faults + 1
      omega
    · rw [if_neg hL]
      refine ⟨Or.inl rfl, rfl, ?_, rfl, by simp [hst]⟩
      show s.page_hits + 1 + s.page_faults = s.page_hits + s.page_faults + 1
      omega
  · rw [if_neg hst]
    dsimp only
    obtain ⟨hma, hpf, hph, hlen⟩ := handle_page_fault_counters
      { s with
        memory_accesses := s.memory_accesses + 1
        page_faults := s.page_faults + 1 } (accessFrameIndex s address)
    refine ⟨Or.inr rfl, ?_, ?_, ?_, ?_⟩
    · simp only [hma]
    · simp only [hph, hpf]
      show s.page_hits + (s.page_faults + 1) = s.page_hits + s.page_faults + 1
      omega
    · simp only [hlen]
    · simp only [hst]
      constructor
      · intro hc
        have : False := by simp at hc
        exact this.elim
      · intro hc
        exact hc.elim

/-- What `deallocate_memory` does once the frame to free resolves to an
allocated frame `fnum` owned by `pid` (on an invariant-respecting state):
it succeeds and frees exactly the owner's page-table entry. -/
theorem deallocCore_resolved {s : Engine} (h : EngineInv s) {fnum pid : Nat}
    {l : List Nat}
    (hfr : frameAt s.memory fnum = ⟨.allocated, pid⟩)
    (hg : dget s.page_table pid = some l) :
    (deallocCore s fnum).1 = Except.ok () ∧
    (deallocCore s fnum).2.memory = setFrames ⟨.free, 0⟩ s.memory l ∧
    (deallocCore s fnum).2.page_table = ddel s.page_table pid ∧
    (deallocCore s fnum).2.page_queue =
      (if s.algorithm = "FIFO" then s.page_queue.filter (fun p => p.1 ≠ pid)
       else s.page_queue) ∧
    (deallocCore s fnum).2.page_access_time =
      (if s.algorithm = "LRU" then s.page_access_time.filter (fun q => q.1.1 ≠ pid)
       else s.page_access_time) := by
  have hpid := h.pid_range pid (by rw [hg]; rfl)
  have hts := h.table_sound pid l hg
  have hb : ∀ fi ∈ l, fi < s.memory.length := fun fi hfi => (hts.2 fi hfi).1
  have hid0 : ¬ (frameAt s.memory fnum).id = 0 := by
    rw [hfr]
    simp only
    omega
  have hpfval : (if (dget s.page_table (frameAt s.memory fnum).id).getD [] = []
      then [fnum] else (dget s.page_table (frameAt s.memory fnum).id).getD []) = l := by
    rw [hfr]
    simp only [hg, Option.getD_some]
    rw [if_neg hts.1]
  rw [deallocCore, if_neg hid0]
  simp only [hpfval]
  simp only [hfr]
  obtain ⟨hm, hq, hat, _, _, _, _, _, hpt, _, _, _, _, _⟩ :=
    deallocLoop_spec pid l s hts.1 hb
  refine ⟨by trivial, ?_, ?_, ?_, ?_⟩
  · exact hm
  · show ddel (List.foldl (deallocStep pid) s l).page_table pid = ddel s.page_table pid
    rw [hpt]
  · exact hq
  · exact hat

/-!
## The claims
-/

/-- C1: on every engine state reachable by a sequence of
allocate/deallocate/access operations from a freshly constructed engine,
a frame index is `allocated` iff it occurs in some owner's frame sequence
in the page table (no orphaned allocated frames, no page-table entries
pointing at free frames). -/
theorem c1_allocated_iff_page_table {s : Engine} (h : Reachable s) (i : Nat) :
    (i < s.memory.length ∧ (frameAt s.memory i).status = .allocated) ↔
      (∃ pid l, dget s.page_table pid = some l ∧ i ∈ l) := by
  have hinv := inv_reachable h
  constructor
  · rintro ⟨hlt, hst⟩
    obtain ⟨l, hg, hm⟩ := hinv.mem_complete i hlt hst
    exact ⟨_, l, hg, hm⟩
  · rintro ⟨pid, l, hg, hm⟩
    have h2 := (hinv.table_sound pid l hg).2 i hm
    exact ⟨h2.1, by rw [h2.2]⟩

/-- Witness for C1 at a concrete reachable state (allocate two frames,
fault in a third by access, deallocate the first allocation, then ask
about frame 2). -/
theorem c1_allocated_iff_page_table_witness :
    (2 < (runReqs (initEngine "paging" 256 64 "FIFO")
        [Request.alloc 100, Request.access 170, Request.dealloc 0]).memory.length ∧
      (frameAt (runReqs (initEngine "paging" 256 64 "FIFO")
        [Request.alloc 100, Request.access 170, Request.dealloc 0]).memory 2).status
        = .allocated) ↔
      (∃ pid l, dget (runReqs (initEngine "paging" 256 64 "FIFO")
        [Request.alloc 100, Request.access 170, Request.dealloc 0]).page_table pid
          = some l ∧ 2 ∈ l) :=
  c1_allocated_iff_page_table
    ⟨"paging", 256, 64, "FIFO",
      [Request.alloc 100, Request.access 170, Request.dealloc 0],
      by omega, rfl⟩ 2

/-- C2: starting from a freshly constructed engine (valid construction:
positive page size dividing a positive memory size) and performing any
sequence of `access` operations only, `page_hits + page_faults =
memory_accesses`. -/
theorem c2_hits_plus_faults_eq_accesses (technique : String) (ms ps : Nat)
    (alg : String) (hps : 1 ≤ ps) (hdvd : ps ∣ ms) (hms : 0 < ms)
    (addrs : List Int) :
    (runAccesses (initEngine technique ms ps alg) addrs).page_hits +
      (runAccesses (initEngine technique ms ps alg) addrs).page_faults =
      (runAccesses (initEngine technique ms ps alg) addrs).memory_accesses := by
  have hlen : (initEngine technique ms ps alg).memory.length = ms / ps := by
    simp [initEngine]
  have hpos : ms / ps ≠ 0 := by
    obtain ⟨k, rfl⟩ := hdvd
    rw [Nat.mul_div_cancel_left k (by omega)]
    intro hk
    rw [hk] at hms
    simp at hms
  suffices hgen : ∀ (l : List Int) (t : Engine), t.memory.length ≠ 0 →
      t.page_hits + t.page_faults = t.memory_accesses →
      (runAccesses t l).page_hits + (runAccesses t l).page_faults =
        (runAccesses t l).memory_accesses by
    apply hgen
    · rw [hlen]
      exact hpos
    · simp [initEngine]
  intro l
  induction l with
  | nil => intro t hne hinv; exact hinv
  | cons a rest ih =>
    intro t hne hinv
    obtain ⟨_, hma, hcount, hlen', _⟩ := access_memory_counters a hne
    apply ih
    · rw [hlen']
      exact hne
    · rw [hcount, hma, hinv]

/-- Witness for C2 on a concrete access sequence (in-bounds, negative and
out-of-bounds addresses). -/
theorem c2_hits_plus_faults_eq_accesses_witness :
    (runAccesses (initEngine "paging" 256 64 "FIFO")
      [(0 : Int), 100, -3, 999, 0]).page_hits +
    (runAccesses (initEngine "paging" 256 64 "FIFO")
      [(0 : Int), 100, -3, 999, 0]).page_faults =
    (runAccesses (initEngine "paging" 256 64 "FIFO")
      [(0 : Int), 100, -3, 999, 0]).memory_accesses :=
  c2_hits_plus_faults_eq_accesses "paging" 256 64 "FIFO" (by omega)
    (by omega) (by omega) [(0 : Int), 100, -3, 999, 0]

/-- C6: on any engine state, an allocation request needing more pages than
`total_frames` (`num_pages_needed` is the code's ceiling division
`(size + page_size - 1) // page_size`) raises `CapacityError` and returns
the state completely unchanged. -/
theorem c6_capacity_rejection (s : Engine) (size : Nat)
    (h : num_pages_needed s size > s.total_frames) :
    allocate_memory s size = (Except.error ExcKind.capacityError, s) := by
  rw [allocate_memory, if_pos h]

/-- Witness for C6: requesting 512 bytes on a fresh 4-frame engine. -/
theorem c6_capacity_rejection_witness :
    allocate_memory (initEngine "paging" 256 64 "FIFO") 512 =
      (Except.error ExcKind.capacityError, initEngine "paging" 256 64 "FIFO") :=
  c6_capacity_rejection (initEngine "paging" 256 64 "FIFO") 512 (by decide)

/-- C8: `access_memory` never raises on an engine with at least one frame
(any valid construction guarantees that, as well as a positive page size —
the hypothesis `1 ≤ page_size` marks where Python's `//` would otherwise
raise `ZeroDivisionError`): the clamped frame index lands in
`[0, total_frames)`, `memory_accesses` increments unconditionally, and the
result is the boolean hit/fault outcome of the resolved frame. -/
theorem c8_access_never_errors (s : Engine) (address : Int)
    (_hps : 1 ≤ s.page_size) (hne : s.memory.length ≠ 0)
    (htf : s.memory.length = s.total_frames) :
    accessFrameIndex s address < s.total_frames ∧
    (access_memory s address).2.memory_accesses = s.memory_accesses + 1 ∧
    ((access_memory s address).1 = Except.ok true ∨
      (access_memory s address).1 = Except.ok false) ∧
    ((access_memory s address).1 = Except.ok true ↔
      (frameAt s.memory (accessFrameIndex s address)).status = .allocated) := by
  obtain ⟨hok, hma, _, _, hiff⟩ := access_memory_counters address hne
  refine ⟨?_, hma, hok, hiff⟩
  rw [← htf]
  exact accessFrameIndex_lt address hne

/-- Witness for C8: a negative address on a state with one allocation. -/
theorem c8_access_never_errors_witness :
    accessFrameIndex (runReqs (initEngine "paging" 256 64 "LRU")
        [Request.alloc 64]) (-5) <
      (runReqs (initEngine "paging" 256 64 "LRU") [Request.alloc 64]).total_frames ∧
    (access_memory (runReqs (initEngine "paging" 256 64 "LRU")
        [Request.alloc 64]) (-5)).2.memory_accesses =
      (runReqs (initEngine "paging" 256 64 "LRU") [Request.alloc 64]).memory_accesses
        + 1 ∧
    ((access_memory (runReqs (initEngine "paging" 256 64 "LRU")
        [Request.alloc 64]) (-5)).1 = Except.ok true ∨
      (access_memory (runReqs (initEngine "paging" 256 64 "LRU")
        [Request.alloc 64]) (-5)).1 = Except.ok false) ∧
    ((access_memory (runReqs (initEngine "paging" 256 64 "LRU")
        [Request.alloc 64]) (-5)).1 = Except.ok true ↔
      (frameAt (runReqs (initEngine "paging" 256 64 "LRU")
        [Request.alloc 64]).memory
        (accessFrameIndex (runReqs (initEngine "paging" 256 64 "LRU")
          [Request.alloc 64]) (-5))).status = .allocated) :=
  c8_access_never_errors (runReqs (initEngine "paging" 256 64 "LRU")
    [Request.alloc 64]) (-5) (by decide) (by decide) (by decide)

/-- C10: whenever `deallocate_memory` raises any of its errors, the
returned state is exactly the input state — no field changed. -/
theorem c10_deallocate_atomic_on_failure (s : Engine) (address : Int)
    (e : ExcKind) (s' : Engine)
    (h : deallocate_memory s address = (Except.error e, s')) : s' = s := by
  have hcore : ∀ fnum s'', deallocCore s fnum = (Except.error e, s'') → s'' = s := by
    intro fnum s'' hc
    rw [deallocCore] at hc
    by_cases hid : (frameAt s.memory fnum).id = 0
    · rw [if_pos hid] at hc
      exact ((Prod.mk.injEq _ _ _ _).mp hc).2.symm
    · rw [if_neg hid] at hc
      have := ((Prod.mk.injEq _ _ _ _).mp hc).1
      exact absurd this (by simp)
  rw [deallocate_memory] at h
  by_cases hob : address.fdiv (s.page_size : Int) ≥ ((s.memory.length : Int)) ∨
      address.fdiv (s.page_size : Int) < 0
  · rw [if_pos hob] at h
    exact ((Prod.mk.injEq _ _ _ _).mp h).2.symm
  · rw [if_neg hob] at h
    by_cases hst : (frameAt s.memory
        (address.fdiv (s.page_size : Int)).toNat).status = .allocated
    · rw [if_pos hst] at h
      exact hcore _ _ h
    · rw [if_neg hst] at h
      rcases hae : allocatedIdx s.memory with _ | ⟨j, tl⟩
      · rw [hae] at h
        exact ((Prod.mk.injEq _ _ _ _).mp h).2.symm
      · rw [hae] at h
        exact hcore _ _ h

/-- Witness for C10: deallocating an out-of-bounds address on a state with
one allocation leaves the state unchanged. -/
theorem c10_deallocate_atomic_on_failure_witness :
    (runReqs (initEngine "paging" 256 64 "FIFO") [Request.alloc 64]) =
      (runReqs (initEngine "paging" 256 64 "FIFO") [Request.alloc 64]) :=
  c10_deallocate_atomic_on_failure
    (runReqs (initEngine "paging" 256 64 "FIFO") [Request.alloc 64]) 1000
    ExcKind.invalidAddressError
    (runReqs (initEngine "paging" 256 64 "FIFO") [Request.alloc 64])
    (by rfl)

/-- C3: FIFO eviction order.  On `c3state` the fifth single-frame
allocation evicts exactly one victim — A's frame 0 (`page_faults` rises by
exactly 1, A's page-table entry disappears, frame 0 is handed to the new
owner 5, and B, C, D keep their frames). -/
theorem c3_fifo_evicts_oldest :
    dget c3state.page_table 1 = some [0] ∧
    dget c3state.page_table 2 = some [1] ∧
    dget c3state.page_table 3 = some [2] ∧
    dget c3state.page_table 4 = some [3] ∧
    (allocate_memory c3state 64).1 = Except.ok 0 ∧
    (allocate_memory c3state 64).2.page_faults = c3state.page_faults + 1 ∧
    dget (allocate_memory c3state 64).2.page_table 1 = none ∧
    frameAt (allocate_memory c3state 64).2.memory 0 = ⟨.allocated, 5⟩ ∧
    dget (allocate_memory c3state 64).2.page_table 2 = some [1] ∧
    dget (allocate_memory c3state 64).2.page_table 3 = some [2] ∧
    dget (allocate_memory c3state 64).2.page_table 4 = some [3] ∧
    (allocate_memory c3state 64).2.page_queue = [(2, 1), (3, 2), (4, 3), (5, 0)] := by
  decide

/-- C4: LRU eviction order.  On `c4state`, A's timestamp is 1 while B,C,D
keep timestamp 0, so the next single-frame allocation evicts B's frame 1
(the first minimum-timestamp pair), not A's frame: B's entry disappears,
frame 1 is handed to owner 5, and A keeps frame 0. -/
theorem c4_lru_evicts_least_recently_used :
    c4state.page_access_time =
      [((1, 0), 1), ((2, 1), 0), ((3, 2), 0), ((4, 3), 0)] ∧
    (allocate_memory c4state 64).1 = Except.ok 64 ∧
    (allocate_memory c4state 64).2.page_faults = c4state.page_faults + 1 ∧
    dget (allocate_memory c4state 64).2.page_table 2 = none ∧
    dget (allocate_memory c4state 64).2.page_table 1 = some [0] ∧
    frameAt (allocate_memory c4state 64).2.memory 1 = ⟨.allocated, 5⟩ ∧
    dget (allocate_memory c4state 64).2.page_table 3 = some [2] ∧
    dget (allocate_memory c4state 64).2.page_table 4 = some [3] := by
  decide

theorem frameAt_of_le_length {m : List Frame} {i : Nat} (h : m.length ≤ i) :
    frameAt m i = ⟨.free, 0⟩ :=
  List.getD_eq_default m _ h

/-- C5: on any reachable engine state (positive page size) in which an
owner `pid` holds several frames `l`, deallocating via the base address of
any one frame `j ∈ l` succeeds, frees every frame owned by `pid`, removes
`pid`'s page-table entry, and removes all of `pid`'s replacement-metadata
entries — never a partial deallocation. -/
theorem c5_deallocate_whole_allocation {s : Engine} (hre : Reachable s)
    (hps : 1 ≤ s.page_size) {pid : Nat} {l : List Nat}
    (hg : dget s.page_table pid = some l) (hsev : 2 ≤ l.length)
    {j : Nat} (hj : j ∈ l) :
    (deallocate_memory s ((j : Int) * (s.page_size : Int))).1 = Except.ok () ∧
    (∀ i, frameAt s.memory i = ⟨.allocated, pid⟩ →
      frameAt (deallocate_memory s ((j : Int) * (s.page_size : Int))).2.memory i
        = ⟨.free, 0⟩) ∧
    dget (deallocate_memory s ((j : Int) * (s.page_size : Int))).2.page_table pid
      = none ∧
    (∀ p ∈ (deallocate_memory s ((j : Int) * (s.page_size : Int))).2.page_queue,
      p.1 ≠ pid) ∧
    (∀ q ∈ (deallocate_memory s
        ((j : Int) * (s.page_size : Int))).2.page_access_time,
      q.1.1 ≠ pid) := by
  have h := inv_reachable hre
  have hpid := h.pid_range pid (by rw [hg]; rfl)
  have hts := h.table_sound pid l hg
  have hb : ∀ fi ∈ l, fi < s.memory.length := fun fi hfi => (hts.2 fi hfi).1
  have hjlt : j < s.memory.length := (hts.2 j hj).1
  have hjfr : frameAt s.memory j = ⟨.allocated, pid⟩ := (hts.2 j hj).2
  have hfd : ((j : Int) * (s.page_size : Int)).fdiv (s.page_size : Int) = (j : Int) :=
    Int.mul_fdiv_cancel _ (by omega)
  have hnob : ¬ (((j : Int) * (s.page_size : Int)).fdiv (s.page_size : Int) ≥
      ((s.memory.length : Int)) ∨
      ((j : Int) * (s.page_size : Int)).fdiv (s.page_size : Int) < 0) := by
    rw [hfd]
    push_neg
    omega
  have hdc : deallocate_memory s ((j : Int) * (s.page_size : Int)) =
      deallocCore s j := by
    rw [deallocate_memory, if_neg hnob]
    simp only [hfd, Int.toNat_natCast]
    rw [if_pos (by rw [hjfr])]
  obtain ⟨hok, hm, hpt, hq, hat⟩ := deallocCore_resolved h hjfr hg
  rw [hdc]
  refine ⟨hok, ?_, ?_, ?_, ?_⟩
  · intro i hi
    have hilt : i < s.memory.length := by
      by_contra hc
      rw [frameAt_of_le_length (Nat.le_of_not_lt hc)] at hi
      have := (Frame.mk.injEq _ _ _ _).mp hi
      exact FrameStatus.noConfusion this.1
    obtain ⟨lᵢ, hgᵢ, hiᵢ⟩ := h.mem_complete i hilt (by rw [hi])
    rw [hi] at hgᵢ
    simp only at hgᵢ
    rw [hg] at hgᵢ
    obtain rfl : lᵢ = l := ((Option.some.injEq _ _).mp hgᵢ).symm
    rw [hm]
    exact frameAt_setFrames_mem hb hiᵢ
  · rw [hpt]
    exact dget_ddel_self _ _
  · intro p hp
    rw [hq] at hp
    by_cases hF : s.algorithm = "FIFO"
    · rw [if_pos hF] at hp
      simpa using List.of_mem_filter hp
    · rw [if_neg hF, h.fifo_only hF] at hp
      exact absurd hp (List.not_mem_nil p)
  · intro q hqm
    rw [hat] at hqm
    by_cases hL : s.algorithm = "LRU"
    · rw [if_pos hL] at hqm
      simpa using List.of_mem_filter hqm
    · rw [if_neg hL, h.lru_only hL] at hqm
      exact absurd hqm (List.not_mem_nil q)

/-- Witness for C5: deallocating via the middle frame's base address
(frame 1, address 64) frees the whole three-frame allocation. -/
theorem c5_deallocate_whole_allocation_witness :
    (deallocate_memory c5state ((1 : Int) * (c5state.page_size : Int))).1
      = Except.ok () ∧
    (∀ i, frameAt c5state.memory i = ⟨.allocated, 1⟩ →
      frameAt (deallocate_memory c5state
        ((1 : Int) * (c5state.page_size : Int))).2.memory i = ⟨.free, 0⟩) ∧
    dget (deallocate_memory c5state
      ((1 : Int) * (c5state.page_size : Int))).2.page_table 1 = none ∧
    (∀ p ∈ (deallocate_memory c5state
        ((1 : Int) * (c5state.page_size : Int))).2.page_queue, p.1 ≠ 1) ∧
    (∀ q ∈ (deallocate_memory c5state
        ((1 : Int) * (c5state.page_size : Int))).2.page_access_time,
      q.1.1 ≠ 1) :=
  c5_deallocate_whole_allocation
    ⟨"paging", 256, 64, "FIFO", [Request.alloc 192], by omega, rfl⟩
    (by decide)
    (by decide : dget c5state.page_table 1 = some [0, 1, 2])
    (by decide)
    (by decide : (1 : Nat) ∈ [0, 1, 2])

/-- C7: on any reachable engine state (positive page size), deallocating
an in-bounds address whose frame is not allocated falls back to the first
allocated frame in ascending index order (head of `allocatedIdx`): the
call behaves exactly like deallocating that frame's base address and
succeeds; if no frame at all is allocated it raises
`NothingAllocatedError` and leaves the state unchanged. -/
theorem c7_deallocate_fallback {s : Engine} (hre : Reachable s) (address : Int)
    (hps : 1 ≤ s.page_size)
    (hin : 0 ≤ address.fdiv (s.page_size : Int) ∧
      address.fdiv (s.page_size : Int) < ((s.memory.length : Int)))
    (hfree : ¬ (frameAt s.memory
      (address.fdiv (s.page_size : Int)).toNat).status = .allocated) :
    (∀ j tl, allocatedIdx s.memory = j :: tl →
      deallocate_memory s address =
        deallocate_memory s ((j : Int) * (s.page_size : Int)) ∧
      (deallocate_memory s address).1 = Except.ok ()) ∧
    (allocatedIdx s.memory = [] →
      deallocate_memory s address = (Except.error ExcKind.nothingAllocatedError, s)) := by
  have h := inv_reachable hre
  have hnob : ¬ (address.fdiv (s.page_size : Int) ≥ ((s.memory.length : Int)) ∨
      address.fdiv (s.page_size : Int) < 0) := by
    push_neg
    omega
  constructor
  · intro j tl hae
    have hjmem : j ∈ allocatedIdx s.memory := by
      rw [hae]
      exact List.mem_cons_self _ _
    obtain ⟨hjlt, hjst⟩ := mem_allocatedIdx.mp hjmem
    have hjfr : frameAt s.memory j = ⟨.allocated, (frameAt s.memory j).id⟩ := by
      rcases hx : frameAt s.memory j with ⟨st, idv⟩
      rw [hx] at hjst
      simp only at hjst
      rw [hjst]
    obtain ⟨lj, hgj, hmj⟩ := h.mem_complete j hjlt hjst
    have hL : deallocate_memory s address = deallocCore s j := by
      rw [deallocate_memory, if_neg hnob, if_neg hfree, hae]
    have hfd : ((j : Int) * (s.page_size : Int)).fdiv (s.page_size : Int)
        = (j : Int) := Int.mul_fdiv_cancel _ (by omega)
    have hnob2 : ¬ (((j : Int) * (s.page_size : Int)).fdiv (s.page_size : Int) ≥
        ((s.memory.length : Int)) ∨
        ((j : Int) * (s.page_size : Int)).fdiv (s.page_size : Int) < 0) := by
      rw [hfd]
      push_neg
      omega
    have hR : deallocate_memory s ((j : Int) * (s.page_size : Int)) =
        deallocCore s j := by
      rw [deallocate_memory, if_neg hnob2]
      simp only [hfd, Int.toNat_natCast]
      rw [if_pos hjst]
    refine ⟨by rw [hL, hR], ?_⟩
    rw [hL]
    exact (deallocCore_resolved h hjfr hgj).1
  · intro hae
    rw [deallocate_memory, if_neg hnob, if_neg hfree, hae]

/-- Witness for C7 at address 128 (frame 2, which is free). -/
theorem c7_deallocate_fallback_witness :
    (∀ j tl, allocatedIdx c7state.memory = j :: tl →
      deallocate_memory c7state 128 =
        deallocate_memory c7state ((j : Int) * (c7state.page_size : Int)) ∧
      (deallocate_memory c7state 128).1 = Except.ok ()) ∧
    (allocatedIdx c7state.memory = [] →
      deallocate_memory c7state 128 =
        (Except.error ExcKind.nothingAllocatedError, c7state)) :=
  c7_deallocate_fallback
    ⟨"paging", 256, 64, "FIFO", [Request.alloc 64], by omega, rfl⟩
    128 (by decide) (by decide) (by decide)

theorem verify_iff_criterion_some (e : ExpectedOp)
    (he : e.optype = "allocate" ∨ e.optype = "access" ∨
      e.optype = "deallocate" ∨ e.optype = "reset")
    (od : OperationData) :
    verify_step_completed ⟨some e⟩ od = true ↔
      claimStepCriterion ⟨some e⟩ od := by
  rcases e with ⟨et, esz, ead⟩
  rcases od with ⟨ot, osz, oad⟩
  simp only at he
  rcases he with he | he | he | he <;> subst he
  · rcases esz with _ | sz
    · by_cases hot : ot = some "allocate"
      · subst hot
        simp [verify_step_completed, claimStepCriterion]
      · simp [verify_step_completed, claimStepCriterion, hot]
    · by_cases hot : ot = some "allocate"
      · subst hot
        simp [verify_step_completed, claimStepCriterion]
        exact eq_comm
      · simp [verify_step_completed, claimStepCriterion, hot]
        intro hc
        exact absurd hc.symm hot
  · rcases ead with _ | ad
    · by_cases hot : ot = some "access"
      · subst hot
        simp [verify_step_completed, claimStepCriterion]
      · simp [verify_step_completed, claimStepCriterion, hot]
    · by_cases hot : ot = some "access"
      · subst hot
        simp [verify_step_completed, claimStepCriterion]
        exact eq_comm
      · simp [verify_step_completed, claimStepCriterion, hot]
        intro hc
        exact absurd hc.symm hot
  · by_cases hot : ot = some "deallocate"
    · subst hot
      simp [verify_step_completed, claimStepCriterion]
    · simp [verify_step_completed, claimStepCriterion, hot]
      exact fun hc => hot hc.symm
  · by_cases hot : ot = some "reset"
    · subst hot
      simp [verify_step_completed, claimStepCriterion]
    · simp [verify_step_completed, claimStepCriterion, hot]

/-- C9: for every step of the four tutorials and every performed
operation record, `verify_step_completed` returns `true` exactly under
the claim's criterion: equal operation types, plus size equality for an
expected allocate, address equality for an expected access, any
deallocate for an expected deallocate; a reset expectation is satisfied
only by a reset-typed operation, and a step without an expected operation
is satisfied by every operation. -/
theorem c9_verify_step_completed (step : TutStep)
    (hstep : step ∈ allTutorialSteps) (od : OperationData) :
    verify_step_completed step od = true ↔ claimStepCriterion step od := by
  have hty : ∀ st ∈ allTutorialSteps, stepTypeOk st = true := by decide
  have h := hty step hstep
  obtain ⟨seo⟩ := step
  rcases seo with _ | e
  · simp [verify_step_completed, claimStepCriterion]
  · simp only [stepTypeOk] at h
    rcases Bool.or_eq_true_iff.mp h with h' | h'
    case _ =>
      rcases Bool.or_eq_true_iff.mp h' with h'' | h''
      · rcases Bool.or_eq_true_iff.mp h'' with h3 | h3
        · exact verify_iff_criterion_some e (Or.inl (by simpa using h3)) od
        · exact verify_iff_criterion_some e (Or.inr (Or.inl (by simpa using h3))) od
      · exact verify_iff_criterion_some e
          (Or.inr (Or.inr (Or.inl (by simpa using h'')))) od
    case _ =>
      exact verify_iff_criterion_some e
        (Or.inr (Or.inr (Or.inr (by simpa using h')))) od

/-- Witness for C9: the "Memory Allocation" step of the intro tutorial
(expected allocate of 128 bytes) against a performed allocate of 128. -/
theorem c9_verify_step_completed_witness :
    verify_step_completed ⟨some ⟨"allocate", some 128, none⟩⟩
        ⟨some "allocate", some 128, none⟩ = true ↔
      claimStepCriterion ⟨some ⟨"allocate", some 128, none⟩⟩
        ⟨some "allocate", some 128, none⟩ :=
  c9_verify_step_completed ⟨some ⟨"allocate", some 128, none⟩⟩ (by decide)
    ⟨some "allocate", some 128, none⟩
